import Mathlib

/-!
A verification development for the `WebScraper` crawler (`src/main.py`).

The crawler is embedded shallowly:

* URL handling models the fragment of `urllib.parse` that the program uses
  (`urlparse`, `urlunparse`, `urljoin`, and the `netloc` projection), on
  `List Char` so that string reasoning is by ordinary list induction.
  `urlparse`'s `params` component is folded into `path` (the program never
  separates it, and `urlunparse` re-joins it verbatim), and the only modelled
  parse failure is the "Invalid IPv6 URL" bracket check, which is the failure
  the program can actually hit on an anchor href.
* Wildcard patterns model `fnmatch.translate` (for `*`, `?` and literal
  characters) compiled with `re.IGNORECASE` and applied with `Pattern.search`,
  exactly as `main.wildcard_to_regex` plus `is_valid_url` do.
* The crawl itself is a fuel-indexed state machine over `CrawlSt`.  Network
  and robots.txt behaviour comes from an `Env` oracle.  Every HTTP request the
  engine issues is recorded as a `FetchEvent` (the seed accessibility probe,
  each `scrape_url` page request, and each `get_links_from_page` request),
  with its start timestamp, so that the rate-limiting claims are statements
  about the event trace.  Wall-clock time is `ℤ`.
-/

namespace WebScraper

/-! ### Characters and generic list splitting -/

/-- Characters allowed in a URL scheme after the leading letter
(`urllib.parse.scheme_chars`). -/
def schemeChar (c : Char) : Bool :=
  c.isAlpha || c.isDigit || c == '+' || c == '-' || c == '.'

/-- Split a character list at the first occurrence of `sep`: the part before it
and, when `sep` occurs, the part after it. -/
def splitAtFirst (sep : Char) : List Char → List Char × Option (List Char)
  | [] => ([], none)
  | c :: cs =>
    if c = sep then ([], some cs)
    else
      let r := splitAtFirst sep cs
      (c :: r.1, r.2)

/-- `str.split(sep)` on character lists. -/
def splitOnChar (sep : Char) : List Char → List (List Char)
  | [] => [[]]
  | c :: cs =>
    let r := splitOnChar sep cs
    if c = sep then [] :: r
    else
      match r with
      | [] => [[c]]
      | h :: t => (c :: h) :: t

/-- `sep.join(parts)` on character lists. -/
def joinChar (sep : Char) (parts : List (List Char)) : List Char :=
  List.intercalate [sep] parts

/-! ### `urllib.parse` model -/

/-- The components of a parsed URL (`params` folded into `path`). -/
structure UrlParts where
  scheme : List Char
  netloc : List Char
  path : List Char
  query : List Char
  fragment : List Char
deriving DecidableEq

/-- Locate the first `':'`: the characters before it and the characters after
it, when a colon exists. -/
def findColon : List Char → Option (List Char × List Char)
  | [] => none
  | c :: cs =>
    if c = ':' then some ([], cs)
    else
      match findColon cs with
      | none => none
      | some (a, b) => some (c :: a, b)

/-- The scheme-extraction step of `urlsplit`: a valid scheme is a nonempty
prefix before the first `':'` whose head is a letter and whose other characters
are scheme characters; it is lowercased. -/
def splitScheme (s : List Char) : List Char × List Char :=
  match findColon s with
  | none => ([], s)
  | some (before, after) =>
    match before with
    | [] => ([], s)
    | c :: rest =>
      if c.isAlpha && rest.all schemeChar then
        ((c :: rest).map Char.toLower, after)
      else ([], s)

/-- A character that terminates the `netloc` component. -/
def netlocStop (c : Char) : Bool := c == '/' || c == '?' || c == '#'

/-- The netloc-extraction step of `urlsplit`: present only after a leading
`"//"`, running up to the next `'/'`, `'?'` or `'#'`. -/
def splitNetloc (s : List Char) : List Char × List Char :=
  match s with
  | c1 :: c2 :: rest =>
    if c1 = '/' ∧ c2 = '/' then
      (rest.takeWhile (fun c => !netlocStop c), rest.dropWhile (fun c => !netlocStop c))
    else ([], s)
  | _ => ([], s)

/-- `urllib.parse.urlparse` on character lists (scheme, then netloc, then
fragment at the first `'#'`, then query at the first `'?'`). -/
def parseL (s : List Char) : UrlParts :=
  let p1 := splitScheme s
  let p2 := splitNetloc p1.2
  let p3 := splitAtFirst '#' p2.2
  let p4 := splitAtFirst '?' p3.1
  { scheme := p1.1, netloc := p2.1, path := p4.1,
    query := (p4.2).getD [], fragment := (p3.2).getD [] }

/-- Does a character list start with `"//"`? -/
def startsSlashSlash : List Char → Bool
  | c1 :: c2 :: _ => c1 = '/' && c2 = '/'
  | _ => false

/-- Schemes that carry a netloc (`urllib.parse.uses_netloc`). -/
def usesNetloc : List (List Char) :=
  [[], "ftp".data, "http".data, "gopher".data, "nntp".data, "telnet".data,
   "imap".data, "wais".data, "file".data, "mms".data, "https".data,
   "shttp".data, "snews".data, "prospero".data, "rtsp".data, "rtspu".data,
   "rsync".data, "svn".data, "svn+ssh".data, "sftp".data, "nfs".data,
   "git".data, "git+ssh".data, "ws".data, "wss".data]

/-- `urllib.parse.urlunparse` (with empty `params`) on character lists: the
`"//"` group is emitted when the netloc is nonempty, or when the scheme is a
netloc-carrying scheme and the path does not already start with `"//"`. -/
def unparseL (p : UrlParts) : List Char :=
  let u0 := p.path
  let u1 :=
    if p.netloc ≠ [] ∨ (p.scheme ≠ [] ∧ p.scheme ∈ usesNetloc ∧ ¬startsSlashSlash u0) then
      '/' :: '/' :: p.netloc ++
        (if u0 ≠ [] ∧ u0.head? ≠ some '/' then '/' :: u0 else u0)
    else u0
  let u2 := if p.scheme ≠ [] then p.scheme ++ ':' :: u1 else u1
  let u3 := if p.query ≠ [] then u2 ++ '?' :: p.query else u2
  if p.fragment ≠ [] then u3 ++ '#' :: p.fragment else u3

/-- `urlparse` on Lean strings. -/
def urlparse (s : String) : UrlParts := parseL s.data

/-- `urlunparse` on Lean strings. -/
def urlunparse (p : UrlParts) : String := String.mk (unparseL p)

/-- `urlparse(url).netloc`, the program's notion of a URL's domain. -/
def netlocOf (s : String) : String := String.mk (urlparse s).netloc

/-- Drop query and fragment: the `_replace(fragment='', query='')` step. -/
def cleanParts (p : UrlParts) : UrlParts := { p with query := [], fragment := [] }

/-- The canonical ("clean") form of a URL built by `get_links_from_page`:
`urlunparse(urlparse(u)._replace(fragment='', query=''))`. -/
def cleanUrl (s : String) : String := urlunparse (cleanParts (urlparse s))

/-- `urlsplit` raises `ValueError("Invalid IPv6 URL")` when the netloc has a
`'['` without `']'` or vice versa; this is the validity check. -/
def bracketsOK (netloc : List Char) : Bool :=
  (netloc.contains '[') == (netloc.contains ']')

/-- Schemes treated as relative-capable by `urljoin`
(`urllib.parse.uses_relative`). -/
def usesRelative : List (List Char) :=
  [[], "ftp".data, "http".data, "gopher".data, "nntp".data, "imap".data,
   "wais".data, "file".data, "https".data, "shttp".data, "mms".data,
   "prospero".data, "rtsp".data, "rtspu".data, "sftp".data, "svn".data,
   "svn+ssh".data, "ws".data, "wss".data]

/-- The dot-segment resolution loop of `urljoin`. -/
def resolveSegments (segs : List (List Char)) : List (List Char) :=
  segs.foldl
    (fun acc seg =>
      if seg = ['.', '.'] then acc.dropLast
      else if seg = ['.'] then acc
      else acc ++ [seg])
    []

/-- `urllib.parse.urljoin` on character lists (total; bracket validity is
checked separately by `urljoinE`). -/
def urljoinL (base url : List Char) : List Char :=
  if base = [] then url
  else if url = [] then base
  else
    let b := parseL base
    let h := parseL url
    let scheme := if h.scheme = [] then b.scheme else h.scheme
    if scheme ≠ b.scheme ∨ scheme ∉ usesRelative then url
    else
      let netloc :=
        if scheme ∈ usesNetloc ∧ h.netloc ≠ [] then h.netloc else b.netloc
      if scheme ∈ usesNetloc ∧ h.netloc ≠ [] then
        unparseL { h with scheme := scheme, netloc := h.netloc }
      else if h.path = [] then
        unparseL { scheme := scheme, netloc := netloc, path := b.path,
                   query := if h.query = [] then b.query else h.query,
                   fragment := h.fragment }
      else
        let baseParts := splitOnChar '/' b.path
        let baseParts :=
          if baseParts.getLast? ≠ some [] then baseParts.dropLast else baseParts
        let segments :=
          if h.path.head? = some '/' then splitOnChar '/' h.path
          else
            let segs := baseParts ++ splitOnChar '/' h.path
            match segs with
            | [] => []
            | first :: more =>
              first :: (more.dropLast.filter (fun seg => seg ≠ [])) ++
                (match more.getLast? with | none => [] | some l => [l])
        let resolved := resolveSegments segments
        let resolved :=
          if segments.getLast? = some ['.'] ∨ segments.getLast? = some ['.', '.'] then
            resolved ++ [[]]
          else resolved
        let newPath := joinChar '/' resolved
        unparseL { scheme := scheme, netloc := netloc,
                   path := if newPath = [] then ['/'] else newPath,
                   query := h.query, fragment := h.fragment }

/-- `urljoin(base, href)` as the program calls it: it first parses `href`, so
the call raises `ValueError` when the href's netloc fails the bracket check.
That exception is modelled as `Except.error`. -/
def urljoinE (base href : String) : Except Unit String :=
  if bracketsOK (parseL href.data).netloc then
    Except.ok (String.mk (urljoinL base.data href.data))
  else Except.error ()

/-! ### Wildcard patterns (`main.wildcard_to_regex` and `is_valid_url`)

`wildcard_to_regex(p)` is `re.compile(fnmatch.translate(p), re.IGNORECASE)`.
`fnmatch.translate` maps `*` to `.*`, `?` to `.`, other characters to literals,
and appends an end-of-string anchor `\Z` (character classes `[...]` are outside
the modelled fragment; no pattern used here contains them).  `is_valid_url`
applies the compiled pattern with `Pattern.search`, which tries every start
position, so the compiled pattern matches a URL exactly when the translated
glob fully matches some suffix of it. -/

/-- The matching loop for a translated glob.  Every recursive call consumes
at least one character of the pattern or of the subject, so
`p.length + s.length` bounds the recursion depth; the explicit fuel (always
supplied above that bound by `globMatchCore`) makes the function structurally
recursive and therefore evaluable by the kernel. -/
def globMatchGo : ℕ → List Char → List Char → Bool
  | 0, _, _ => false
  | _ + 1, [], [] => true
  | _ + 1, [], _ :: _ => false
  | f + 1, '*' :: ps, [] => globMatchGo f ps []
  | f + 1, '*' :: ps, c :: s1 =>
    globMatchGo f ps (c :: s1) || globMatchGo f ('*' :: ps) s1
  | _ + 1, '?' :: _, [] => false
  | f + 1, '?' :: ps, _ :: s1 => globMatchGo f ps s1
  | _ + 1, _ :: _, [] => false
  | f + 1, pc :: ps, c :: s1 => (pc.toLower == c.toLower) && globMatchGo f ps s1

/-- Full, case-insensitive match of a translated glob against a whole string
(`*` is any run of characters, `?` a single character, anything else a literal
compared under `re.IGNORECASE`). -/
def globMatchCore (p s : List Char) : Bool :=
  globMatchGo (p.length + s.length + 1) p s

/-- `Pattern.search` with the compiled pattern of `wildcard_to_regex`: the
translated glob (which ends in `\Z`) matches starting at some position, i.e. it
fully matches some suffix. -/
def globSearch (p s : List Char) : Bool :=
  globMatchCore p s ||
    match s with
    | [] => false
    | _ :: s1 => globSearch p s1

/-- The pattern-filter portion of `is_valid_url` (`src/main.py` lines
144-158): any matching exclude pattern rejects; otherwise, when include
patterns are configured, some include pattern must match; otherwise allow. -/
def patternAllowed (excl incl : List String) (url : String) : Bool :=
  if excl.any (fun p => globSearch p.data url.data) then false
  else if incl ≠ [] then incl.any (fun p => globSearch p.data url.data)
  else true

/-- Modelled from the spec, for comparison with `patternAllowed`: the pattern
filter as §4.4 words it, with each glob "anchored to match the whole string"
(`isAllowedByPatterns`).  The code's translation is anchored only at the end
and applied with `search`; this definition is the spec's whole-string variant. -/
def isAllowedByPatterns (excl incl : List String) (url : String) : Bool :=
  if excl.any (fun p => globMatchCore p.data url.data) then false
  else if incl ≠ [] then incl.any (fun p => globMatchCore p.data url.data)
  else true

/-! ### The crawler state machine

The configuration mirrors the `WebScraper.__init__` parameters the crawl
logic reads (patterns are the glob strings handed to `main.wildcard_to_regex`;
`headers`, `output_format`, `verbose` and `user_agent` only affect I/O or are
folded into the robots oracle).  The `Env` oracle fixes, per session, what the
network returns: this is faithful because `robots_cache` makes the first
answer per domain authoritative, and page fetches are consulted once per
call site.  Exceptions raised by `urljoin` on a malformed href are modelled
explicitly; URLs already accepted into the crawl (the seed and cleaned links)
are assumed to parse, as they do on every path the program exercises. -/

/-- Crawl configuration (the constructor arguments of `WebScraper`). -/
structure Config where
  start_url : String
  allow_exit : Bool
  external_links_depth : Int
  max_depth : Int
  delay : ℤ
  respect_robots : Bool
  exclude_patterns : List String
  include_patterns : List String
deriving DecidableEq

/-- `self.start_domain = urlparse(start_url).netloc`. -/
def start_domain (cfg : Config) : String := netlocOf cfg.start_url

/-- What one `requests.get` can come back with. -/
inductive FetchOutcome where
  | exc
  | status429
  | httpError
  | nonHtml
  | html (hrefs : List String)

/-- A domain's robots.txt as the network would deliver it: whether the fetch
succeeded with HTTP 200 (otherwise the parser is cached as `None` = allow
all), which URLs the parsed rules disallow for the configured user agent, and
the declared crawl delay, if any. -/
structure RobotsInfo where
  ok200 : Bool
  disallows : String → Bool
  crawlDelay : Option ℤ

/-- The session-fixed network oracle. -/
structure Env where
  probeOk : Bool
  probeDuration : ℤ
  fetchPage : String → FetchOutcome
  pageDuration : String → ℤ
  fetchLinks : String → FetchOutcome
  linksDuration : String → ℤ
  robotsOf : String → RobotsInfo

/-- Which request a recorded fetch event was. -/
inductive EventKind where
  | probe
  | scrape
  | links
deriving DecidableEq

/-- One HTTP request issued by the engine: the exact URL requested, the
request-start timestamp, which call site issued it, and (for main-loop page
requests) the effective delay `get_crawl_delay` computed for it. -/
structure FetchEvent where
  url : String
  time : ℤ
  kind : EventKind
  usedDelay : ℤ
deriving DecidableEq

/-- The crawler's mutable state, together with the instrumentation the claims
are about: the trace of issued requests, the list of URLs the pattern filter
was applied to, and flags for the two ways a crawl can stop early. -/
structure CrawlSt where
  visited : List String
  results : List String
  hopsUsed : Int
  currentDomains : List String
  robotsCached : List String
  domainDelays : List (String × ℤ)
  lastRequest : List (String × ℤ)
  now : ℤ
  events : List FetchEvent
  patternChecked : List String
  crashed : Bool
  abortedByRobots : Bool
deriving DecidableEq

/-- The state right after `__init__`. -/
def initState (cfg : Config) : CrawlSt :=
  { visited := [], results := [], hopsUsed := 0,
    currentDomains := [start_domain cfg], robotsCached := [],
    domainDelays := [], lastRequest := [], now := 0, events := [],
    patternChecked := [], crashed := false, abortedByRobots := false }

/-- The value `can_fetch(url)` returns, which depends only on the oracle:
`True` when compliance is off; otherwise `True` unless a successfully fetched
robots.txt disallows the URL (a missing or failed robots.txt allows all). -/
def canFetchResult (cfg : Config) (env : Env) (url : String) : Bool :=
  if !cfg.respect_robots then true
  else
    let info := env.robotsOf (netlocOf url)
    if info.ok200 then !info.disallows url else true

/-- `can_fetch` with its side effect: on the first query for a domain,
`get_robots_parser` fetches robots.txt, caches the parser (or the `None`
negative result), and on HTTP 200 records a truthy `Crawl-delay` in
`domain_delays`. -/
def can_fetch (cfg : Config) (env : Env) (st : CrawlSt) (url : String) :
    Bool × CrawlSt :=
  if !cfg.respect_robots then (true, st)
  else
    let d := netlocOf url
    let st1 :=
      if d ∈ st.robotsCached then st
      else
        let info := env.robotsOf d
        let st2 := { st with robotsCached := d :: st.robotsCached }
        if info.ok200 then
          match info.crawlDelay with
          | some cd =>
            if cd ≠ 0 then { st2 with domainDelays := (d, cd) :: st2.domainDelays }
            else st2
          | none => st2
        else st2
    (canFetchResult cfg env url, st1)

/-- `get_crawl_delay`: the robots-declared delay for the domain, if one was
cached, combined with the configured default by `max`. -/
def get_crawl_delay (cfg : Config) (st : CrawlSt) (url : String) : ℤ :=
  match st.domainDelays.lookup (netlocOf url) with
  | some dd => max cfg.delay dd
  | none => cfg.delay

/-- `is_valid_url`: robots first, then the pattern filter.  The URL is added
to `patternChecked` exactly when the filter phase is reached. -/
def is_valid_url (cfg : Config) (env : Env) (st : CrawlSt) (url : String) :
    Bool × CrawlSt :=
  let r := can_fetch cfg env st url
  if !r.1 then (false, r.2)
  else
    let st1 := { r.2 with patternChecked := r.2.patternChecked ++ [url] }
    (patternAllowed cfg.exclude_patterns cfg.include_patterns url, st1)

/-- `is_same_domain`, the scope guard: the start domain is always in scope;
otherwise, with `allow_exit`, a domain already admitted stays in scope, and a
new domain is admitted (consuming one unit of `max_external_hops`) only while
the budget `external_links_depth` is not exhausted. -/
def is_same_domain (cfg : Config) (st : CrawlSt) (url : String) :
    Bool × CrawlSt :=
  let d := netlocOf url
  if d = start_domain cfg then (true, st)
  else
    if cfg.allow_exit then
      if d ∉ st.currentDomains then
        if st.hopsUsed < cfg.external_links_depth then
          (true, { st with hopsUsed := st.hopsUsed + 1,
                           currentDomains := d :: st.currentDomains })
        else (false, st)
      else (true, st)
    else (false, st)

/-- The internal-link loop of `extract_data` (`src/main.py` lines 219-223):
for each of the first 50 hrefs, `urljoin` then `is_same_domain`.  A `urljoin`
failure raises out of `extract_data`; state mutated before the raise stays
mutated.  The second component reports whether the loop raised. -/
def extract_data_links (cfg : Config) (st : CrawlSt) (url : String) :
    List String → CrawlSt × Bool
  | [] => (st, false)
  | h :: hs =>
    match urljoinE url h with
    | Except.error _ => (st, true)
    | Except.ok absolute =>
      let r := is_same_domain cfg st absolute
      extract_data_links cfg r.2 url hs

/-- `scrape_url`: one page request; 429 sleeps `3 * delay` and skips; error
statuses and non-HTML skip; on HTML, `extract_data` runs (only its
scope-guard side effect is modelled) and any exception inside it is caught by
the blanket `except Exception`, returning `None`.  The result is the recorded
page URL, exactly as requested. -/
def scrape_url (cfg : Config) (env : Env) (st : CrawlSt) (url : String) :
    Option String × CrawlSt :=
  let st0 := { st with now := st.now + env.pageDuration url }
  match env.fetchPage url with
  | FetchOutcome.exc => (none, st0)
  | FetchOutcome.status429 => (none, { st0 with now := st0.now + cfg.delay * 3 })
  | FetchOutcome.httpError => (none, st0)
  | FetchOutcome.nonHtml => (none, st0)
  | FetchOutcome.html hrefs =>
    let r := extract_data_links cfg st0 url (hrefs.take 50)
    if r.2 then (none, r.1) else (some url, r.1)

/-- One href of the `get_links_from_page` loop: `urljoin` (whose
`ValueError` is *not* caught by the surrounding `except RequestException`),
then the clean form, then — short-circuiting — truthiness, the self-link
test, `is_valid_url`, and `is_same_domain`.  Returns the link to collect,
if any. -/
def process_href (cfg : Config) (env : Env) (st : CrawlSt) (url h : String) :
    CrawlSt × Except Unit (Option String) :=
  match urljoinE url h with
  | Except.error _ => (st, Except.error ())
  | Except.ok absolute =>
    let clean_url := cleanUrl absolute
    if clean_url = "" then (st, Except.ok none)
    else if clean_url = url then (st, Except.ok none)
    else
      let rv := is_valid_url cfg env st clean_url
      if !rv.1 then (rv.2, Except.ok none)
      else
        let rs := is_same_domain cfg rv.2 clean_url
        if rs.1 then (rs.2, Except.ok (some clean_url))
        else (rs.2, Except.ok none)

/-- Keep first occurrences (the `seen` / `unique_links` loop). -/
def dedupFirst (seen : List String) : List String → List String
  | [] => []
  | x :: xs =>
    if x ∈ seen then dedupFirst seen xs
    else x :: dedupFirst (x :: seen) xs

/-- The href loop of `get_links_from_page`, accumulating collected links in
order; an uncaught `urljoin` error abandons the loop. -/
def get_links_loop (cfg : Config) (env : Env) (url : String) :
    CrawlSt → List String → List String → CrawlSt × Except Unit (List String)
  | st, acc, [] => (st, Except.ok (dedupFirst [] acc))
  | st, acc, h :: hs =>
    match process_href cfg env st url h with
    | (st1, Except.error _) => (st1, Except.error ())
    | (st1, Except.ok none) => get_links_loop cfg env url st1 acc hs
    | (st1, Except.ok (some l)) => get_links_loop cfg env url st1 (acc ++ [l]) hs

/-- `get_links_from_page`: issues its own page request (recorded as a `links`
event — this request is *not* rate limited), catches only
`requests.RequestException` (bad statuses and transport errors give `[]`),
returns `[]` for non-HTML, and otherwise runs the href loop. -/
def get_links_from_page (cfg : Config) (env : Env) (st : CrawlSt) (url : String) :
    CrawlSt × Except Unit (List String) :=
  let ev : FetchEvent := { url := url, time := st.now, kind := EventKind.links,
                           usedDelay := 0 }
  let st0 := { st with events := st.events ++ [ev],
                       now := st.now + env.linksDuration url }
  match env.fetchLinks url with
  | FetchOutcome.exc => (st0, Except.ok [])
  | FetchOutcome.status429 => (st0, Except.ok [])
  | FetchOutcome.httpError => (st0, Except.ok [])
  | FetchOutcome.nonHtml => (st0, Except.ok [])
  | FetchOutcome.html hrefs => get_links_loop cfg env url st0 [] hrefs

/-- The link-extraction phase of one loop iteration: below the depth
ceiling, extract links from the just-recorded page and propose
`(link, depth+1)` queue entries for the not-yet-visited ones; `none` as
second component means an exception escaped the iteration. -/
def crawlStep_links (cfg : Config) (env : Env) (st5 : CrawlSt) (url : String)
    (depth : Int) : CrawlSt × Option (List (String × Int)) :=
  if depth < cfg.max_depth then
    match get_links_from_page cfg env st5 url with
    | (st6, Except.error _) => ({ st6 with crashed := true }, none)
    | (st6, Except.ok links) =>
      (st6, some ((links.filter (fun l => decide (l ∉ st6.visited))).map
        (fun l => (l, depth + 1))))
  else (st5, some [])

/-- The result-recording and link-extraction phase after a successful or
failed scrape. -/
def crawlStep_scrape (cfg : Config) (env : Env) (st3 : CrawlSt) (url : String)
    (depth : Int) : CrawlSt × Option (List (String × Int)) :=
  let rp := scrape_url cfg env st3 url
  match rp.1 with
  | none => (rp.2, some [])
  | some u =>
    crawlStep_links cfg env { rp.2 with results := rp.2.results ++ [u] }
      url depth

/-- The fetch phase of one loop iteration, starting from the state `st2` in
which the URL was just marked visited: the per-domain rate-limit wait, the
`last_request_time` update, the `scrape` fetch event, then the scrape phase. -/
def crawlStep_fetch (cfg : Config) (env : Env) (st2 : CrawlSt) (url : String)
    (depth : Int) : CrawlSt × Option (List (String × Int)) :=
  let d := netlocOf url
  let cd := get_crawl_delay cfg st2 url
  let tstart :=
    match st2.lastRequest.lookup d with
    | some t => if st2.now - t < cd then t + cd else st2.now
    | none => st2.now
  let ev : FetchEvent := { url := url, time := tstart,
                           kind := EventKind.scrape, usedDelay := cd }
  let st3 := { st2 with now := tstart,
                        lastRequest := (d, tstart) :: st2.lastRequest,
                        events := st2.events ++ [ev] }
  crawlStep_scrape cfg env st3 url depth

/-- One iteration of the main `while queue:` loop for a dequeued
`(url, depth)`: the visited check, the depth check, the scope check (the only
admission component evaluated at dequeue time), then `visited.add` and the
fetch phase. -/
def crawlStep (cfg : Config) (env : Env) (st : CrawlSt) (url : String)
    (depth : Int) : CrawlSt × Option (List (String × Int)) :=
  if url ∈ st.visited then (st, some [])
  else if depth > cfg.max_depth then (st, some [])
  else
    let rs := is_same_domain cfg st url
    if !rs.1 then (rs.2, some [])
    else
      crawlStep_fetch cfg env { rs.2 with visited := url :: rs.2.visited }
        url depth

/-- The fuel-indexed main loop (`deque.popleft` plus `queue.append`). -/
def crawlLoop (cfg : Config) (env : Env) :
    ℕ → List (String × Int) → CrawlSt → CrawlSt
  | 0, _, st => st
  | _ + 1, [], st => st
  | fuel + 1, (url, depth) :: rest, st =>
    match crawlStep cfg env st url depth with
    | (st1, none) => st1
    | (st1, some newEntries) => crawlLoop cfg env fuel (rest ++ newEntries) st1

/-- `crawl`: the seed accessibility probe (a HEAD, possibly retried as a
streamed GET — one request to the seed URL, issued before anything else),
then, only if the probe completed without raising, the seed robots check,
which aborts the whole crawl when compliance is on and the seed is
disallowed; then the BFS loop seeded with `(start_url, 0)`. -/
def crawl (cfg : Config) (env : Env) (fuel : ℕ) : CrawlSt :=
  let st0 := initState cfg
  let probeEv : FetchEvent := { url := cfg.start_url, time := st0.now,
                                kind := EventKind.probe, usedDelay := 0 }
  let st1 := { st0 with events := [probeEv], now := st0.now + env.probeDuration }
  if env.probeOk then
    let rc := can_fetch cfg env st1 cfg.start_url
    if !rc.1 && cfg.respect_robots then { rc.2 with abortedByRobots := true }
    else crawlLoop cfg env fuel [(cfg.start_url, 0)] rc.2
  else crawlLoop cfg env fuel [(cfg.start_url, 0)] st1

/-- A URL whose parse has empty query and fragment: the shape the
canonicalizer guarantees. -/
def qfFree (s : String) : Prop :=
  (urlparse s).query = [] ∧ (urlparse s).fragment = []

instance (s : String) : Decidable (qfFree s) := by
  unfold qfFree; infer_instance

/-! ### Relations and invariants used by the verification -/

/-- A discovered link that survived the admission pipeline of
`get_links_from_page`: robots allowed it, the pattern filter allowed it, and
it is in canonical (query- and fragment-free) form. -/
def goodLink (cfg : Config) (env : Env) (u : String) : Prop :=
  canFetchResult cfg env u = true ∧
  patternAllowed cfg.exclude_patterns cfg.include_patterns u = true ∧
  qfFree u

/-- The `scrape`-kind events of one domain, in trace order. -/
def scrapeEvD (evs : List FetchEvent) (d : String) : List FetchEvent :=
  evs.filter (fun e => decide (e.kind = EventKind.scrape ∧ netlocOf e.url = d))

/-- Two consecutive page fetches are spaced by at least the effective delay
computed for the second. -/
def gapOK (a b : FetchEvent) : Prop := a.time + b.usedDelay ≤ b.time

/-- What the page-processing helpers may do to the state: they never touch
the visited set, the results, the rate-limiter timestamps, the event trace or
the termination flags; the scope counters only grow, the hop bound is
preserved, and any URL newly handed to the pattern filter is in canonical
form. -/
def NoTraceEffect (cfg : Config) (st st' : CrawlSt) : Prop :=
  st'.visited = st.visited ∧ st'.results = st.results ∧
  st'.lastRequest = st.lastRequest ∧ st'.events = st.events ∧
  st'.crashed = st.crashed ∧ st'.abortedByRobots = st.abortedByRobots ∧
  st.hopsUsed ≤ st'.hopsUsed ∧ st.currentDomains ⊆ st'.currentDomains ∧
  (st.hopsUsed ≤ max 0 cfg.external_links_depth →
    st'.hopsUsed ≤ max 0 cfg.external_links_depth) ∧
  (∀ u ∈ st'.patternChecked, u ∈ st.patternChecked ∨ qfFree u)

/-- What `get_links_from_page` does to the state: exactly one `links` fetch
event for the page is appended, and otherwise only what the page-processing
helpers may do. -/
def LinksEffect (cfg : Config) (u : String) (st st' : CrawlSt) : Prop :=
  st'.visited = st.visited ∧ st'.results = st.results ∧
  st'.lastRequest = st.lastRequest ∧
  (∃ ev : FetchEvent, ev.kind = EventKind.links ∧ ev.url = u ∧
    st'.events = st.events ++ [ev]) ∧
  st'.crashed = st.crashed ∧ st'.abortedByRobots = st.abortedByRobots ∧
  st.hopsUsed ≤ st'.hopsUsed ∧ st.currentDomains ⊆ st'.currentDomains ∧
  (st.hopsUsed ≤ max 0 cfg.external_links_depth →
    st'.hopsUsed ≤ max 0 cfg.external_links_depth) ∧
  (∀ x ∈ st'.patternChecked, x ∈ st.patternChecked ∨ qfFree x)

/-- Everything the BFS loop maintains: results are duplicate-free, recorded
only for visited URLs, and only for the seed or admitted links; every fetch
event is for the seed or an admitted link; every main-loop page fetch carries
an effective delay of at least the default and targets a domain the scope
guard admitted; per domain, consecutive page fetches are spaced by the
effective delay of the later one, and the rate-limiter map points at the last
page fetch; the hop counter respects the budget; the start domain is always
admitted; and the pattern filter has only ever been applied to canonicalized
URLs. -/
structure Inv (cfg : Config) (env : Env) (st : CrawlSt) : Prop where
  res_nodup : st.results.Nodup
  res_visited : ∀ u ∈ st.results, u ∈ st.visited
  res_good : ∀ u ∈ st.results, u = cfg.start_url ∨ goodLink cfg env u
  ev_good : ∀ e ∈ st.events, e.url = cfg.start_url ∨ goodLink cfg env e.url
  ev_delay : ∀ e ∈ st.events, e.kind = EventKind.scrape → cfg.delay ≤ e.usedDelay
  ev_scope : ∀ e ∈ st.events, e.kind = EventKind.scrape →
    netlocOf e.url ∈ st.currentDomains
  rl_chain : ∀ d, List.Chain' gapOK (scrapeEvD st.events d)
  rl_last : ∀ d, ((scrapeEvD st.events d).getLast?).map FetchEvent.time =
    st.lastRequest.lookup d
  hops_le : st.hopsUsed ≤ max 0 cfg.external_links_depth
  start_mem : start_domain cfg ∈ st.currentDomains
  pattern_clean : ∀ u ∈ st.patternChecked, qfFree u


/-! ### Concrete sessions used when settling the claims -/

/-- A robots oracle with no robots.txt anywhere. -/
def noRobots : String → RobotsInfo := fun _ => ⟨false, fun _ => false, none⟩

/-- A minimal session: one instantly-served page with no interesting links,
no robots.txt, default delay 1. -/
def cfgA : Config := ⟨"http://a.com/", false, 0, 3, 1, false, [], []⟩

/-- The network for `cfgA`. -/
def envA : Env := ⟨true, 0, fun _ => FetchOutcome.html [], fun _ => 0,
  fun _ => FetchOutcome.html [], fun _ => 0, noRobots⟩

/-- External hops allowed (budget 1) and an exclude pattern for `evil.com`,
whose seed page body links to `http://evil.com/x`. -/
def cfgC2 : Config := ⟨"http://a.com/", true, 1, 3, 1, false, ["*evil*"], []⟩

/-- The network for `cfgC2`. -/
def envC2 : Env := ⟨true, 0,
  fun u => if u = "http://a.com/" then FetchOutcome.html ["http://evil.com/x"]
           else FetchOutcome.html [],
  fun _ => 0, fun _ => FetchOutcome.html [], fun _ => 0, noRobots⟩

/-- Robots compliance on, with a robots.txt on the seed domain that disallows
every URL. -/
def cfgC3 : Config := ⟨"http://a.com/", false, 0, 3, 1, true, [], []⟩

/-- The network for `cfgC3`. -/
def envC3 : Env := ⟨true, 0, fun _ => FetchOutcome.html [], fun _ => 0,
  fun _ => FetchOutcome.html [], fun _ => 0,
  fun d => if d = "a.com" then ⟨true, fun _ => true, none⟩
           else ⟨false, fun _ => false, none⟩⟩

/-- An exclude pattern that matches every URL, including the seed. -/
def cfgC4 : Config := ⟨"http://a.com/", false, 0, 3, 1, false, ["*"], []⟩

/-- A query-bearing seed whose page links to the seed's own canonical form. -/
def cfgC6 : Config := ⟨"http://a.com/p?x=1", false, 0, 3, 1, false, [], []⟩

/-- The network for `cfgC6`. -/
def envC6 : Env := ⟨true, 0, fun _ => FetchOutcome.html [], fun _ => 0,
  fun u => if u = "http://a.com/p?x=1" then FetchOutcome.html ["http://a.com/p"]
           else FetchOutcome.html [],
  fun _ => 0, noRobots⟩

/-- Robots compliance on with a declared `Crawl-delay: 5` against a default
delay of 1; the seed page links to `/b`. -/
def cfgC8 : Config := ⟨"http://a.com/", false, 0, 3, 1, true, [], []⟩

/-- The network for `cfgC8`. -/
def envC8 : Env := ⟨true, 0,
  fun u => if u = "http://a.com/" then FetchOutcome.html [] else FetchOutcome.nonHtml,
  fun _ => 0,
  fun u => if u = "http://a.com/" then FetchOutcome.html ["/b"] else FetchOutcome.html [],
  fun _ => 0, fun _ => ⟨true, fun _ => false, some 5⟩⟩

/-- A state with a cached robots delay of 5 for the seed domain, for
exercising `get_crawl_delay` directly. -/
def stC8 : CrawlSt := { initState cfgC8 with domainDelays := [("a.com", 5)] }

/-- A seed page whose link extraction meets a malformed (bracketed) authority
after a well-formed link. -/
def cfgC9 : Config := ⟨"http://a.com/", false, 0, 3, 1, false, [], []⟩

/-- The network for `cfgC9`: the bad href is in the link-extraction fetch. -/
def envC9 : Env := ⟨true, 0, fun _ => FetchOutcome.html [], fun _ => 0,
  fun u => if u = "http://a.com/" then
             FetchOutcome.html ["http://a.com/ok", "http://[bad"]
           else FetchOutcome.html [],
  fun _ => 0, noRobots⟩

/-- Variant network: the malformed href is in the scraped body handled by
`extract_data`, and the link-extraction request always raises. -/
def envC9b : Env := ⟨true, 0, fun _ => FetchOutcome.html ["http://[bad"], fun _ => 0,
  fun _ => FetchOutcome.exc, fun _ => 0, noRobots⟩

end WebScraper

namespace WebScraper

/-! ### Structural facts about the URL model -/

theorem splitAtFirst_fst_not_mem (sep : Char) (l : List Char) :
    sep ∉ (splitAtFirst sep l).1 := by
  induction l with
  | nil => simp [splitAtFirst]
  | cons c cs ih =>
    simp only [splitAtFirst]
    split
    · simp
    · next h =>
      simp only [List.mem_cons, not_or]
      exact ⟨fun e => h e.symm, ih⟩

theorem mem_splitAtFirst_fst {sep c : Char} {l : List Char}
    (h : c ∈ (splitAtFirst sep l).1) : c ∈ l := by
  induction l with
  | nil => simp [splitAtFirst] at h
  | cons a cs ih =>
    simp only [splitAtFirst] at h
    split at h
    · simp at h
    · rcases List.mem_cons.mp h with h' | h'
      · simp [h']
      · exact List.mem_cons_of_mem _ (ih h')

theorem splitAtFirst_of_not_mem {sep : Char} {l : List Char} (h : sep ∉ l) :
    splitAtFirst sep l = (l, none) := by
  induction l with
  | nil => simp [splitAtFirst]
  | cons c cs ih =>
    simp only [List.mem_cons, not_or] at h
    have hc : ¬(c = sep) := fun e => h.1 e.symm
    simp [splitAtFirst, hc, ih h.2]

theorem mem_dropWhileChar {p : Char → Bool} {c : Char} {l : List Char}
    (h : c ∈ l.dropWhile p) : c ∈ l := by
  induction l with
  | nil => simp [List.dropWhile] at h
  | cons a cs ih =>
    simp only [List.dropWhile] at h
    split at h
    · exact List.mem_cons_of_mem _ (ih h)
    · exact h

theorem findColon_eq : ∀ {l a b : List Char}, findColon l = some (a, b) →
    l = a ++ ':' :: b := by
  intro l
  induction l with
  | nil => intro a b h; simp [findColon] at h
  | cons c cs ih =>
    intro a b h
    simp only [findColon] at h
    split at h
    · next hc =>
      injection h with h'
      injection h' with h1 h2
      subst h1; subst h2; subst hc; rfl
    · revert h
      match hfc : findColon cs with
      | none => intro h; simp at h
      | some (a', b') =>
        intro h
        injection h with h'
        injection h' with h1 h2
        subst h1; subst h2
        simp [ih hfc]

theorem mem_splitScheme_snd {c : Char} {l : List Char}
    (h : c ∈ (splitScheme l).2) : c ∈ l := by
  unfold splitScheme at h
  revert h
  match hfc : findColon l with
  | none => intro h; exact h
  | some (before, after) =>
    match before with
    | [] => intro h; exact h
    | b :: rest =>
      simp only
      split
      · intro h
        rw [findColon_eq hfc]
        exact List.mem_append_right _ (List.mem_cons_of_mem _ h)
      · intro h; exact h

theorem mem_splitNetloc_snd {c : Char} {l : List Char}
    (h : c ∈ (splitNetloc l).2) : c ∈ l := by
  unfold splitNetloc at h
  split at h
  · split at h
    · next hc =>
      obtain ⟨rfl, rfl⟩ := hc
      exact List.mem_cons_of_mem _ (List.mem_cons_of_mem _ (mem_dropWhileChar h))
    · exact h
  · exact h

theorem parseL_query_nil {s : List Char} (h : '?' ∉ s) : (parseL s).query = [] := by
  have hq : '?' ∉ (splitAtFirst '#' (splitNetloc (splitScheme s).2).2).1 := by
    intro hmem
    exact h (mem_splitScheme_snd (mem_splitNetloc_snd (mem_splitAtFirst_fst hmem)))
  simp [parseL, splitAtFirst_of_not_mem hq]

theorem parseL_fragment_nil {s : List Char} (h : '#' ∉ s) :
    (parseL s).fragment = [] := by
  have hq : '#' ∉ (splitNetloc (splitScheme s).2).2 := by
    intro hmem
    exact h (mem_splitScheme_snd (mem_splitNetloc_snd hmem))
  simp [parseL, splitAtFirst_of_not_mem hq]

theorem parseL_netloc_chars {s : List Char} {c : Char}
    (h : c ∈ (parseL s).netloc) : netlocStop c = false := by
  have hn : (parseL s).netloc = (splitNetloc (splitScheme s).2).1 := rfl
  rw [hn] at h
  unfold splitNetloc at h
  split at h
  · split at h
    · simpa using List.mem_takeWhile_imp h
    · simp at h
  · simp at h

theorem parseL_path_no_question {s : List Char} : '?' ∉ (parseL s).path :=
  splitAtFirst_fst_not_mem '?' _

theorem parseL_path_no_hash {s : List Char} : '#' ∉ (parseL s).path := by
  intro h
  exact splitAtFirst_fst_not_mem '#' _ (mem_splitAtFirst_fst h)

theorem toLower_eq_of_small {a d : Char} (hd : d.toNat < 97)
    (h : a.toLower = d) : a = d := by
  unfold Char.toLower at h
  dsimp only at h
  by_cases hc : a.toNat ≥ 65 ∧ a.toNat ≤ 90
  · rw [if_pos hc] at h
    exfalso
    have hval : (Char.ofNat (a.toNat + 32)).toNat = a.toNat + 32 := by
      have hv : (a.toNat + 32).isValidChar := Or.inl (by omega)
      rw [Char.ofNat, dif_pos hv]
      rfl
    have h2 := congrArg Char.toNat h
    rw [hval] at h2
    omega
  · rwa [if_neg hc] at h

theorem parseL_scheme_chars {s : List Char} {c : Char}
    (h : c ∈ (parseL s).scheme) : c ≠ '?' ∧ c ≠ '#' := by
  have hs : (parseL s).scheme = (splitScheme s).1 := rfl
  rw [hs] at h
  unfold splitScheme at h
  revert h
  match findColon s with
  | none => intro h; simp at h
  | some (before, after) =>
    match before with
    | [] => intro h; simp at h
    | b :: rest =>
      simp only
      split
      · next hcond =>
        intro h
        simp only [List.mem_map] at h
        obtain ⟨a, ha, rfl⟩ := h
        simp only [Bool.and_eq_true] at hcond
        have hsc : schemeChar a = true := by
          rcases List.mem_cons.mp ha with rfl | ha'
          · simp [schemeChar, hcond.1]
          · exact (List.all_eq_true.mp hcond.2) a ha'
        constructor
        · intro he
          have := toLower_eq_of_small (by decide) he
          subst this
          simp [schemeChar] at hsc
        · intro he
          have := toLower_eq_of_small (by decide) he
          subst this
          simp [schemeChar] at hsc
      · intro h; simp at h

theorem mem_unparseL {p : UrlParts} {c : Char} (hq : p.query = [])
    (hf : p.fragment = []) (h : c ∈ unparseL p) :
    c ∈ p.scheme ∨ c = ':' ∨ c = '/' ∨ c ∈ p.netloc ∨ c ∈ p.path := by
  unfold unparseL at h
  rw [hq, hf] at h
  simp only [ne_eq, not_true_eq_false, if_false] at h
  repeat' split at h
  all_goals try simp only [List.mem_append, List.mem_cons] at h
  all_goals tauto

/-- The canonicalizer's contract: a cleaned URL parses with empty query and
fragment (its string form contains no `'?'` and no `'#'` at all). -/
theorem cleanUrl_qfFree (s : String) : qfFree (cleanUrl s) := by
  have key : ∀ c : Char, c = '?' ∨ c = '#' →
      c ∉ unparseL (cleanParts (parseL s.data)) := by
    intro c hc h
    have hq : (cleanParts (parseL s.data)).query = [] := rfl
    have hf : (cleanParts (parseL s.data)).fragment = [] := rfl
    have hm := mem_unparseL hq hf h
    have hsch : (cleanParts (parseL s.data)).scheme = (parseL s.data).scheme := rfl
    have hnl : (cleanParts (parseL s.data)).netloc = (parseL s.data).netloc := rfl
    have hpa : (cleanParts (parseL s.data)).path = (parseL s.data).path := rfl
    rw [hsch, hnl, hpa] at hm
    rcases hm with h1 | h1 | h1 | h1 | h1
    · rcases hc with rfl | rfl
      · exact (parseL_scheme_chars h1).1 rfl
      · exact (parseL_scheme_chars h1).2 rfl
    · rcases hc with rfl | rfl <;> cases h1
    · rcases hc with rfl | rfl <;> cases h1
    · have := parseL_netloc_chars h1
      rcases hc with rfl | rfl <;> simp [netlocStop] at this
    · rcases hc with rfl | rfl
      · exact parseL_path_no_question h1
      · exact parseL_path_no_hash h1
  constructor
  · exact parseL_query_nil (key '?' (Or.inl rfl))
  · exact parseL_fragment_nil (key '#' (Or.inr rfl))

/-! ### The search semantics of translated wildcards -/

/-- `Pattern.search` with an end-anchored pattern succeeds exactly when the
translated glob fully matches some suffix of the subject. -/
theorem globSearch_iff {p s : List Char} :
    globSearch p s = true ↔ ∃ t, t <:+ s ∧ globMatchCore p t = true := by
  induction s with
  | nil =>
    constructor
    · intro h
      exact ⟨[], List.suffix_rfl, by simpa [globSearch] using h⟩
    · rintro ⟨t, ht, hm⟩
      rw [List.suffix_nil.mp ht] at hm
      simpa [globSearch] using hm
  | cons c s1 ih =>
    constructor
    · intro h
      rw [globSearch] at h
      rcases Bool.or_eq_true_iff.mp h with h1 | h1
      · exact ⟨c :: s1, List.suffix_rfl, h1⟩
      · obtain ⟨t, ht, hm⟩ := ih.mp h1
        exact ⟨t, ht.trans (List.suffix_cons c s1), hm⟩
    · rintro ⟨t, ht, hm⟩
      rw [globSearch]
      rcases List.suffix_cons_iff.mp ht with rfl | ht'
      · exact Bool.or_eq_true_iff.mpr (Or.inl hm)
      · exact Bool.or_eq_true_iff.mpr (Or.inr (ih.mpr ⟨t, ht', hm⟩))

/-! ### Frame lemmas for the crawler's primitives -/




theorem NoTraceEffect.rfl' (cfg : Config) (st : CrawlSt) : NoTraceEffect cfg st st :=
  ⟨rfl, rfl, rfl, rfl, rfl, rfl, le_refl _, fun _ h => h, fun h => h,
   fun _ h => Or.inl h⟩

theorem NoTraceEffect.trans' {cfg : Config} {s1 s2 s3 : CrawlSt}
    (h1 : NoTraceEffect cfg s1 s2) (h2 : NoTraceEffect cfg s2 s3) :
    NoTraceEffect cfg s1 s3 := by
  obtain ⟨a1, b1, c1, d1, e1, f1, g1, i1, j1, k1⟩ := h1
  obtain ⟨a2, b2, c2, d2, e2, f2, g2, i2, j2, k2⟩ := h2
  refine ⟨a2.trans a1, b2.trans b1, c2.trans c1, d2.trans d1, e2.trans e1,
    f2.trans f1, g1.trans g2, fun x hx => i2 (i1 hx), fun h => j2 (j1 h), ?_⟩
  intro u hu
  rcases k2 u hu with h' | h'
  · exact k1 u h'
  · exact Or.inr h'

theorem can_fetch_effect (cfg : Config) (env : Env) (st : CrawlSt) (u : String) :
    (can_fetch cfg env st u).1 = canFetchResult cfg env u ∧
    ∃ rc dd, (can_fetch cfg env st u).2 =
      { st with robotsCached := rc, domainDelays := dd } := by
  unfold can_fetch canFetchResult
  dsimp only
  repeat' split
  all_goals exact ⟨rfl, _, _, rfl⟩

theorem is_valid_url_effect (cfg : Config) (env : Env) (st : CrawlSt)
    (u : String) :
    (∃ rc dd pc, (is_valid_url cfg env st u).2 =
        { st with robotsCached := rc, domainDelays := dd, patternChecked := pc } ∧
      (pc = st.patternChecked ∨ pc = st.patternChecked ++ [u])) ∧
    ((is_valid_url cfg env st u).1 = true →
      canFetchResult cfg env u = true ∧
      patternAllowed cfg.exclude_patterns cfg.include_patterns u = true) := by
  obtain ⟨hfst, rc, dd, hsnd⟩ := can_fetch_effect cfg env st u
  unfold is_valid_url
  by_cases hok : (can_fetch cfg env st u).1 = true
  · rw [if_neg (by simp [hok])]
    constructor
    · refine ⟨rc, dd, (can_fetch cfg env st u).2.patternChecked ++ [u], ?_, ?_⟩
      · rw [hsnd]
      · rw [hsnd]
        exact Or.inr rfl
    · intro hv
      exact ⟨hfst ▸ hok, hv⟩
  · rw [if_pos (by simpa using hok)]
    constructor
    · refine ⟨rc, dd, (can_fetch cfg env st u).2.patternChecked, ?_, ?_⟩
      · rw [hsnd]
      · rw [hsnd]
        exact Or.inl rfl
    · intro hv
      simp at hv

theorem is_same_domain_cases (cfg : Config) (st : CrawlSt) (u : String) :
    (is_same_domain cfg st u).2 = st ∨
    ((is_same_domain cfg st u).2 =
       { st with hopsUsed := st.hopsUsed + 1,
                 currentDomains := netlocOf u :: st.currentDomains } ∧
     st.hopsUsed < cfg.external_links_depth) := by
  unfold is_same_domain
  dsimp only
  repeat' split
  all_goals first
    | exact Or.inl rfl
    | (next h => exact Or.inr ⟨rfl, h⟩)

theorem is_same_domain_effect (cfg : Config) (st : CrawlSt) (u : String) :
    NoTraceEffect cfg st (is_same_domain cfg st u).2 := by
  rcases is_same_domain_cases cfg st u with h | ⟨h, hlt⟩
  · rw [h]; exact NoTraceEffect.rfl' cfg st
  · rw [h]
    refine ⟨rfl, rfl, rfl, rfl, rfl, rfl, ?_, ?_, ?_, fun u h => Or.inl h⟩
    · show st.hopsUsed ≤ st.hopsUsed + 1
      omega
    · intro x hx
      show x ∈ netlocOf u :: st.currentDomains
      exact List.mem_cons_of_mem _ hx
    · intro _
      show st.hopsUsed + 1 ≤ max 0 cfg.external_links_depth
      have h2 : cfg.external_links_depth ≤ max 0 cfg.external_links_depth :=
        le_max_right _ _
      omega

theorem is_same_domain_true_mem {cfg : Config} {st : CrawlSt} {u : String}
    (h : (is_same_domain cfg st u).1 = true)
    (hstart : start_domain cfg ∈ st.currentDomains) :
    netlocOf u ∈ (is_same_domain cfg st u).2.currentDomains := by
  unfold is_same_domain at h ⊢
  dsimp only at h ⊢
  by_cases h1 : netlocOf u = start_domain cfg
  · rw [if_pos h1] at h ⊢
    rw [h1]
    exact hstart
  · rw [if_neg h1] at h ⊢
    by_cases h2 : cfg.allow_exit = true
    · rw [if_pos h2] at h ⊢
      by_cases h3 : netlocOf u ∉ st.currentDomains
      · rw [if_pos h3] at h ⊢
        by_cases h4 : st.hopsUsed < cfg.external_links_depth
        · rw [if_pos h4]
          exact List.mem_cons_self _ _
        · rw [if_neg h4] at h
          simp at h
      · rw [if_neg h3] at h ⊢
        push_neg at h3
        exact h3
    · rw [if_neg h2] at h
      simp at h

theorem is_same_domain_mem_nochange {cfg : Config} {st : CrawlSt} {u : String}
    (h : netlocOf u ∈ st.currentDomains) :
    (is_same_domain cfg st u).2 = st := by
  unfold is_same_domain
  dsimp only
  by_cases h1 : netlocOf u = start_domain cfg
  · rw [if_pos h1]
  · rw [if_neg h1]
    by_cases h2 : cfg.allow_exit = true
    · rw [if_pos h2]
      rw [if_neg (by simpa using h)]
    · rw [if_neg h2]

theorem extract_data_links_effect (cfg : Config) (url : String) :
    ∀ (hs : List String) (st : CrawlSt),
      NoTraceEffect cfg st (extract_data_links cfg st url hs).1 := by
  intro hs
  induction hs with
  | nil => intro st; exact NoTraceEffect.rfl' cfg st
  | cons h t ih =>
    intro st
    unfold extract_data_links
    dsimp only
    match urljoinE url h with
    | Except.error e => exact NoTraceEffect.rfl' cfg st
    | Except.ok absolute =>
      exact (is_same_domain_effect cfg st absolute).trans' (ih _)

theorem scrape_url_effect (cfg : Config) (env : Env) (st : CrawlSt) (u : String) :
    NoTraceEffect cfg st (scrape_url cfg env st u).2 ∧
    ((scrape_url cfg env st u).1 = none ∨ (scrape_url cfg env st u).1 = some u) := by
  have hbase : NoTraceEffect cfg st { st with now := st.now + env.pageDuration u } :=
    ⟨rfl, rfl, rfl, rfl, rfl, rfl, le_refl _, fun _ h => h, fun h => h,
     fun _ h => Or.inl h⟩
  unfold scrape_url
  dsimp only
  rcases hfp : env.fetchPage u with _ | _ | _ | _ | hrefs
  all_goals dsimp only
  · exact ⟨hbase, Or.inl rfl⟩
  · refine ⟨?_, Or.inl rfl⟩
    exact hbase.trans' ⟨rfl, rfl, rfl, rfl, rfl, rfl, le_refl _, fun _ h => h,
      fun h => h, fun _ h => Or.inl h⟩
  · exact ⟨hbase, Or.inl rfl⟩
  · exact ⟨hbase, Or.inl rfl⟩
  · have hx := extract_data_links_effect cfg u (hrefs.take 50)
      { st with now := st.now + env.pageDuration u }
    by_cases hr : (extract_data_links cfg
        { st with now := st.now + env.pageDuration u } u (hrefs.take 50)).2 = true
    · rw [if_pos hr]
      exact ⟨hbase.trans' hx, Or.inl rfl⟩
    · rw [if_neg hr]
      exact ⟨hbase.trans' hx, Or.inr rfl⟩

theorem is_valid_url_noTrace (cfg : Config) (env : Env) (st : CrawlSt)
    (u : String) (hq : qfFree u) :
    NoTraceEffect cfg st (is_valid_url cfg env st u).2 := by
  obtain ⟨⟨rc, dd, pc, heq, hpc⟩, _⟩ := is_valid_url_effect cfg env st u
  rw [heq]
  refine ⟨rfl, rfl, rfl, rfl, rfl, rfl, le_refl _, fun x hx => hx, fun h => h, ?_⟩
  intro x hx
  rcases hpc with rfl | rfl
  · exact Or.inl hx
  · rcases List.mem_append.mp hx with h' | h'
    · exact Or.inl h'
    · simp only [List.mem_singleton] at h'
      subst h'
      exact Or.inr hq

theorem process_href_effect (cfg : Config) (env : Env) (st : CrawlSt)
    (url h : String) :
    NoTraceEffect cfg st (process_href cfg env st url h).1 ∧
    ∀ l, (process_href cfg env st url h).2 = Except.ok (some l) →
      goodLink cfg env l := by
  unfold process_href
  rcases hj : urljoinE url h with e | absolute <;> dsimp only
  · exact ⟨NoTraceEffect.rfl' cfg st, fun l hl => by simp at hl⟩
  · by_cases h1 : cleanUrl absolute = ""
    · rw [if_pos h1]
      exact ⟨NoTraceEffect.rfl' cfg st, fun l hl => by simp at hl⟩
    · rw [if_neg h1]
      by_cases h2 : cleanUrl absolute = url
      · rw [if_pos h2]
        exact ⟨NoTraceEffect.rfl' cfg st, fun l hl => by simp at hl⟩
      · rw [if_neg h2]
        have hvn := is_valid_url_noTrace cfg env st (cleanUrl absolute)
          (cleanUrl_qfFree absolute)
        by_cases h3 : (is_valid_url cfg env st (cleanUrl absolute)).1 = true
        · rw [if_neg (by simp [h3])]
          have hsd := is_same_domain_effect cfg
            (is_valid_url cfg env st (cleanUrl absolute)).2 (cleanUrl absolute)
          by_cases h4 : (is_same_domain cfg
              (is_valid_url cfg env st (cleanUrl absolute)).2 (cleanUrl absolute)).1 = true
          · rw [if_pos h4]
            refine ⟨hvn.trans' hsd, ?_⟩
            intro l hl
            simp only [Except.ok.injEq, Option.some.injEq] at hl
            subst hl
            obtain ⟨_, h5⟩ := is_valid_url_effect cfg env st (cleanUrl absolute)
            obtain ⟨hcf, hpa⟩ := h5 h3
            exact ⟨hcf, hpa, cleanUrl_qfFree absolute⟩
          · rw [if_neg h4]
            exact ⟨hvn.trans' hsd, fun l hl => by simp at hl⟩
        · rw [if_pos (by simp [Bool.not_eq_true] at h3 ⊢; exact h3)]
          exact ⟨hvn, fun l hl => by simp at hl⟩

theorem mem_dedupFirst {x : String} :
    ∀ {seen l : List String}, x ∈ dedupFirst seen l → x ∈ l := by
  intro seen l
  induction l generalizing seen with
  | nil => intro h; simp [dedupFirst] at h
  | cons a t ih =>
    intro h
    unfold dedupFirst at h
    split at h
    · exact List.mem_cons_of_mem _ (ih h)
    · rcases List.mem_cons.mp h with rfl | h'
      · exact List.mem_cons_self _ _
      · exact List.mem_cons_of_mem _ (ih h')

theorem get_links_loop_effect (cfg : Config) (env : Env) (url : String) :
    ∀ (hs : List String) (st : CrawlSt) (acc : List String),
      NoTraceEffect cfg st (get_links_loop cfg env url st acc hs).1 ∧
      ∀ links, (get_links_loop cfg env url st acc hs).2 = Except.ok links →
        ∀ l ∈ links, l ∈ acc ∨ goodLink cfg env l := by
  intro hs
  induction hs with
  | nil =>
    intro st acc
    refine ⟨NoTraceEffect.rfl' cfg st, ?_⟩
    intro links hl l hmem
    unfold get_links_loop at hl
    simp only [Except.ok.injEq] at hl
    subst hl
    exact Or.inl (mem_dedupFirst hmem)
  | cons h t ih =>
    intro st acc
    obtain ⟨hnt, hgood⟩ := process_href_effect cfg env st url h
    unfold get_links_loop
    rcases hph : process_href cfg env st url h with ⟨st1, res⟩
    rw [hph] at hnt hgood
    dsimp only at hnt hgood
    rcases res with e | lo
    · dsimp only
      exact ⟨hnt, fun links hl => by simp at hl⟩
    · rcases lo with _ | l
      · dsimp only
        obtain ⟨hnt2, hout⟩ := ih st1 acc
        exact ⟨hnt.trans' hnt2, hout⟩
      · dsimp only
        obtain ⟨hnt2, hout⟩ := ih st1 (acc ++ [l])
        refine ⟨hnt.trans' hnt2, ?_⟩
        intro links hl x hx
        rcases hout links hl x hx with hacc | hg
        · rcases List.mem_append.mp hacc with h' | h'
          · exact Or.inl h'
          · simp only [List.mem_singleton] at h'
            subst h'
            exact Or.inr (hgood x rfl)
        · exact Or.inr hg


theorem get_links_from_page_effect (cfg : Config) (env : Env) (st : CrawlSt)
    (u : String) :
    LinksEffect cfg u st (get_links_from_page cfg env st u).1 ∧
    ∀ links, (get_links_from_page cfg env st u).2 = Except.ok links →
      ∀ l ∈ links, goodLink cfg env l := by
  unfold get_links_from_page
  dsimp only
  set ev : FetchEvent :=
    { url := u, time := st.now, kind := EventKind.links, usedDelay := 0 } with hev
  set st0 : CrawlSt := { st with events := st.events ++ [ev],
                                 now := st.now + env.linksDuration u } with hst0
  have hcomb : ∀ st' : CrawlSt, NoTraceEffect cfg st0 st' →
      LinksEffect cfg u st st' := by
    intro st' hn
    obtain ⟨a, b, c, d, e, f, g, i, j, k⟩ := hn
    refine ⟨a, b, c, ⟨ev, rfl, rfl, d⟩, e, f, g, i, j, ?_⟩
    intro x hx
    exact k x hx
  rcases hfp : env.fetchLinks u with _ | _ | _ | _ | hrefs
  all_goals dsimp only
  · exact ⟨hcomb st0 (NoTraceEffect.rfl' cfg st0), fun links hl l hm => by
      simp only [Except.ok.injEq] at hl; subst hl; simp at hm⟩
  · exact ⟨hcomb st0 (NoTraceEffect.rfl' cfg st0), fun links hl l hm => by
      simp only [Except.ok.injEq] at hl; subst hl; simp at hm⟩
  · exact ⟨hcomb st0 (NoTraceEffect.rfl' cfg st0), fun links hl l hm => by
      simp only [Except.ok.injEq] at hl; subst hl; simp at hm⟩
  · exact ⟨hcomb st0 (NoTraceEffect.rfl' cfg st0), fun links hl l hm => by
      simp only [Except.ok.injEq] at hl; subst hl; simp at hm⟩
  · obtain ⟨hnt, hout⟩ := get_links_loop_effect cfg env u hrefs st0 []
    refine ⟨hcomb _ hnt, ?_⟩
    intro links hl l hm
    rcases hout links hl l hm with h' | h'
    · simp at h'
    · exact h'

/-! ### The crawl-session invariant -/

theorem scrapeEvD_append (evs : List FetchEvent) (e : FetchEvent) (d : String) :
    scrapeEvD (evs ++ [e]) d =
      scrapeEvD evs d ++
        (if e.kind = EventKind.scrape ∧ netlocOf e.url = d then [e] else []) := by
  unfold scrapeEvD
  rw [List.filter_append]
  congr 1
  by_cases h : e.kind = EventKind.scrape ∧ netlocOf e.url = d
  · simp [List.filter, h]
  · simp [List.filter, h]

theorem delay_le_get_crawl_delay (cfg : Config) (st : CrawlSt) (u : String) :
    cfg.delay ≤ get_crawl_delay cfg st u := by
  unfold get_crawl_delay
  match st.domainDelays.lookup (netlocOf u) with
  | some dd => exact le_max_left _ _
  | none => exact le_refl _


theorem Inv.of_noTrace {cfg : Config} {env : Env} {st st' : CrawlSt}
    (hi : Inv cfg env st) (hn : NoTraceEffect cfg st st') : Inv cfg env st' := by
  obtain ⟨a, b, c, d, e, f, g, i, j, k⟩ := hn
  refine ⟨?_, ?_, ?_, ?_, ?_, ?_, ?_, ?_, ?_, ?_, ?_⟩
  · rw [b]; exact hi.res_nodup
  · rw [b, a]; exact hi.res_visited
  · rw [b]; exact hi.res_good
  · rw [d]; exact hi.ev_good
  · rw [d]; exact hi.ev_delay
  · rw [d]; intro ev hm hk; exact i (hi.ev_scope ev hm hk)
  · rw [d]; exact hi.rl_chain
  · rw [d, c]; exact hi.rl_last
  · exact j hi.hops_le
  · exact i hi.start_mem
  · intro u hu
    rcases k u hu with h' | h'
    · exact hi.pattern_clean u h'
    · exact h'

theorem Inv.of_links {cfg : Config} {env : Env} {st st' : CrawlSt} {u : String}
    (hi : Inv cfg env st) (hl : LinksEffect cfg u st st')
    (hu : u = cfg.start_url ∨ goodLink cfg env u) : Inv cfg env st' := by
  obtain ⟨a, b, c, ⟨ev, hk, hurl, d⟩, e, f, g, i, j, k⟩ := hl
  have hnotscrape : ¬(ev.kind = EventKind.scrape ∧ netlocOf ev.url = ev.url) ∧
      ∀ d', ¬(ev.kind = EventKind.scrape ∧ netlocOf ev.url = d') := by
    constructor
    · rintro ⟨hks, _⟩; rw [hk] at hks; cases hks
    · rintro d' ⟨hks, _⟩; rw [hk] at hks; cases hks
  refine ⟨?_, ?_, ?_, ?_, ?_, ?_, ?_, ?_, ?_, ?_, ?_⟩
  · rw [b]; exact hi.res_nodup
  · rw [b, a]; exact hi.res_visited
  · rw [b]; exact hi.res_good
  · rw [d]
    intro e' he'
    rcases List.mem_append.mp he' with h' | h'
    · exact hi.ev_good e' h'
    · simp only [List.mem_singleton] at h'
      subst h'
      rw [hurl]
      exact hu
  · rw [d]
    intro e' he' hke'
    rcases List.mem_append.mp he' with h' | h'
    · exact hi.ev_delay e' h' hke'
    · simp only [List.mem_singleton] at h'
      subst h'
      rw [hk] at hke'
      cases hke'
  · rw [d]
    intro e' he' hke'
    rcases List.mem_append.mp he' with h' | h'
    · exact i (hi.ev_scope e' h' hke')
    · simp only [List.mem_singleton] at h'
      subst h'
      rw [hk] at hke'
      cases hke'
  · intro d'
    rw [d, scrapeEvD_append, if_neg (hnotscrape.2 d'), List.append_nil]
    exact hi.rl_chain d'
  · intro d'
    rw [d, scrapeEvD_append, if_neg (hnotscrape.2 d'), List.append_nil, c]
    exact hi.rl_last d'
  · exact j hi.hops_le
  · exact i hi.start_mem
  · intro x hx
    rcases k x hx with h' | h'
    · exact hi.pattern_clean x h'
    · exact h'

theorem Inv.set_crashed {cfg : Config} {env : Env} {st : CrawlSt}
    (hi : Inv cfg env st) (b : Bool) :
    Inv cfg env { st with crashed := b } :=
  ⟨hi.res_nodup, hi.res_visited, hi.res_good, hi.ev_good, hi.ev_delay,
   hi.ev_scope, hi.rl_chain, hi.rl_last, hi.hops_le, hi.start_mem,
   hi.pattern_clean⟩

theorem Inv.set_aborted {cfg : Config} {env : Env} {st : CrawlSt}
    (hi : Inv cfg env st) (b : Bool) :
    Inv cfg env { st with abortedByRobots := b } :=
  ⟨hi.res_nodup, hi.res_visited, hi.res_good, hi.ev_good, hi.ev_delay,
   hi.ev_scope, hi.rl_chain, hi.rl_last, hi.hops_le, hi.start_mem,
   hi.pattern_clean⟩

theorem Inv.cons_visited {cfg : Config} {env : Env} {st : CrawlSt}
    (hi : Inv cfg env st) (u : String) :
    Inv cfg env { st with visited := u :: st.visited } := by
  refine ⟨hi.res_nodup, ?_, hi.res_good, hi.ev_good, hi.ev_delay, hi.ev_scope,
    hi.rl_chain, hi.rl_last, hi.hops_le, hi.start_mem, hi.pattern_clean⟩
  intro x hx
  exact List.mem_cons_of_mem _ (hi.res_visited x hx)

theorem Inv.append_result {cfg : Config} {env : Env} {st : CrawlSt}
    (hi : Inv cfg env st) {u : String}
    (hnotin : u ∉ st.results) (hvis : u ∈ st.visited)
    (hu : u = cfg.start_url ∨ goodLink cfg env u) :
    Inv cfg env { st with results := st.results ++ [u] } := by
  refine ⟨?_, ?_, ?_, hi.ev_good, hi.ev_delay, hi.ev_scope, hi.rl_chain,
    hi.rl_last, hi.hops_le, hi.start_mem, hi.pattern_clean⟩
  · rw [List.nodup_append]
    refine ⟨hi.res_nodup, List.nodup_singleton _, ?_⟩
    intro a ha hb
    simp only [List.mem_singleton] at hb
    subst hb
    exact hnotin ha
  · intro x hx
    rcases List.mem_append.mp hx with h' | h'
    · exact hi.res_visited x h'
    · simp only [List.mem_singleton] at h'
      subst h'
      exact hvis
  · intro x hx
    rcases List.mem_append.mp hx with h' | h'
    · exact hi.res_good x h'
    · simp only [List.mem_singleton] at h'
      subst h'
      exact hu

theorem Inv.scrape_event {cfg : Config} {env : Env} {st : CrawlSt}
    (hi : Inv cfg env st) {u : String} {tstart cd : ℤ}
    (hu : u = cfg.start_url ∨ goodLink cfg env u)
    (hmem : netlocOf u ∈ st.currentDomains)
    (hcd : cfg.delay ≤ cd)
    (hgap : ∀ t, st.lastRequest.lookup (netlocOf u) = some t → t + cd ≤ tstart) :
    Inv cfg env { st with now := tstart,
                          lastRequest := (netlocOf u, tstart) :: st.lastRequest,
                          events := st.events ++
                            [⟨u, tstart, EventKind.scrape, cd⟩] } := by
  set e : FetchEvent := ⟨u, tstart, EventKind.scrape, cd⟩ with he
  refine ⟨hi.res_nodup, hi.res_visited, hi.res_good, ?_, ?_, ?_, ?_, ?_,
    hi.hops_le, hi.start_mem, hi.pattern_clean⟩
  · intro e' he'
    rcases List.mem_append.mp he' with h' | h'
    · exact hi.ev_good e' h'
    · simp only [List.mem_singleton] at h'
      subst h'
      exact hu
  · intro e' he' hk
    rcases List.mem_append.mp he' with h' | h'
    · exact hi.ev_delay e' h' hk
    · simp only [List.mem_singleton] at h'
      subst h'
      exact hcd
  · intro e' he' hk
    rcases List.mem_append.mp he' with h' | h'
    · exact hi.ev_scope e' h' hk
    · simp only [List.mem_singleton] at h'
      subst h'
      exact hmem
  · intro d'
    rw [scrapeEvD_append]
    by_cases hd : e.kind = EventKind.scrape ∧ netlocOf e.url = d'
    · rw [if_pos hd]
      rw [List.chain'_append]
      refine ⟨hi.rl_chain d', List.chain'_singleton _, ?_⟩
      intro x hx y hy
      simp only [List.head?_cons, Option.mem_def, Option.some.injEq] at hy
      subst hy
      have hlast := hi.rl_last d'
      rcases hgl : (scrapeEvD st.events d').getLast? with _ | lastEv
      · simp [hgl] at hx
      · rw [hgl] at hlast hx
        simp only [Option.map_some'] at hlast
        simp only [Option.mem_def, Option.some.injEq] at hx
        subst hx
        have hd' : netlocOf u = d' := hd.2
        have := hgap lastEv.time (by rw [hd']; exact hlast.symm)
        exact this
    · rw [if_neg hd, List.append_nil]
      exact hi.rl_chain d'
  · intro d'
    rw [scrapeEvD_append]
    by_cases hd : netlocOf u = d'
    · rw [if_pos ⟨rfl, hd⟩]
      rw [List.getLast?_concat]
      simp only [Option.map_some']
      have : List.lookup d' ((netlocOf u, tstart) :: st.lastRequest) = some tstart := by
        simp [List.lookup, hd]
      rw [this]
    · have hd2 : ¬(e.kind = EventKind.scrape ∧ netlocOf e.url = d') := by
        rintro ⟨_, h2⟩
        exact hd h2
      rw [if_neg hd2, List.append_nil]
      have hbeq : (d' == netlocOf u) = false := by
        rw [beq_eq_false_iff_ne]
        exact fun h => hd h.symm
      have : List.lookup d' ((netlocOf u, tstart) :: st.lastRequest) =
          List.lookup d' st.lastRequest := by
        simp [List.lookup, hbeq]
      rw [this]
      exact hi.rl_last d'

theorem crawlStep_links_inv {cfg : Config} {env : Env} {st5 : CrawlSt}
    {u : String} {depth : Int} (hi5 : Inv cfg env st5)
    (hu : u = cfg.start_url ∨ goodLink cfg env u) :
    Inv cfg env (crawlStep_links cfg env st5 u depth).1 ∧
    (∀ l, (crawlStep_links cfg env st5 u depth).2 = some l →
      ∀ p ∈ l, p.1 = cfg.start_url ∨ goodLink cfg env p.1) ∧
    ∃ evs, (crawlStep_links cfg env st5 u depth).1.events = st5.events ++ evs ∧
      (crawlStep_links cfg env st5 u depth).1.results = st5.results := by
  unfold crawlStep_links
  by_cases hdm : depth < cfg.max_depth
  · rw [if_pos hdm]
    obtain ⟨hl1, hl2⟩ := get_links_from_page_effect cfg env st5 u
    rcases hgl : get_links_from_page cfg env st5 u with ⟨st6, lres⟩
    rw [hgl] at hl1 hl2
    dsimp only at hl1 hl2
    obtain ⟨l1, l2, l3, ⟨ev, hk6, hurl, l4⟩, l5⟩ := hl1
    rcases lres with e | links
    · dsimp only
      refine ⟨(hi5.of_links ⟨l1, l2, l3, ⟨ev, hk6, hurl, l4⟩, l5⟩ hu).set_crashed
        true, ?_, ⟨[ev], l4, l2⟩⟩
      intro l hl
      cases hl
    · dsimp only
      refine ⟨hi5.of_links ⟨l1, l2, l3, ⟨ev, hk6, hurl, l4⟩, l5⟩ hu, ?_,
        ⟨[ev], l4, l2⟩⟩
      intro l hl p hp
      simp only [Option.some.injEq] at hl
      subst hl
      rcases List.mem_map.mp hp with ⟨x, hx, rfl⟩
      exact Or.inr (hl2 links rfl x (List.mem_of_mem_filter hx))
  · rw [if_neg hdm]
    exact ⟨hi5, fun l hl p hp => by
      simp only [Option.some.injEq] at hl
      subst hl
      simp at hp, ⟨[], by simp, rfl⟩⟩

theorem crawlStep_scrape_inv {cfg : Config} {env : Env} {st3 : CrawlSt}
    {u : String} {depth : Int} (hi3 : Inv cfg env st3)
    (hu : u = cfg.start_url ∨ goodLink cfg env u)
    (hnres : u ∉ st3.results) (hvis : u ∈ st3.visited) :
    Inv cfg env (crawlStep_scrape cfg env st3 u depth).1 ∧
    (∀ l, (crawlStep_scrape cfg env st3 u depth).2 = some l →
      ∀ p ∈ l, p.1 = cfg.start_url ∨ goodLink cfg env p.1) ∧
    ∃ evs res, (crawlStep_scrape cfg env st3 u depth).1.events = st3.events ++ evs ∧
      (crawlStep_scrape cfg env st3 u depth).1.results = st3.results ++ res ∧
      (res = [] ∨ res = [u]) ∧
      (res = [] → (crawlStep_scrape cfg env st3 u depth).2 = some []) := by
  obtain ⟨hnt, hopt⟩ := scrape_url_effect cfg env st3 u
  obtain ⟨ha, hb, hc, hd, he, hf, hg, hh, hj, hk⟩ := hnt
  unfold crawlStep_scrape
  dsimp only
  rcases hsp : (scrape_url cfg env st3 u).1 with _ | v
  · dsimp only
    refine ⟨hi3.of_noTrace ⟨ha, hb, hc, hd, he, hf, hg, hh, hj, hk⟩, ?_,
      ⟨[], [], ?_, ?_, Or.inl rfl, fun _ => rfl⟩⟩
    · intro l hl p hp
      simp only [Option.some.injEq] at hl
      subst hl
      simp at hp
    · rw [hd]; simp
    · rw [hb]; simp
  · have hv : v = u := by
      rcases hopt with h' | h'
      · rw [hsp] at h'; cases h'
      · rw [hsp] at h'
        exact Option.some.inj h'
    subst hv
    try dsimp only
    have hi4 : Inv cfg env (scrape_url cfg env st3 v).2 :=
      hi3.of_noTrace ⟨ha, hb, hc, hd, he, hf, hg, hh, hj, hk⟩
    have hi5 : Inv cfg env { (scrape_url cfg env st3 v).2 with
        results := (scrape_url cfg env st3 v).2.results ++ [v] } := by
      refine hi4.append_result ?_ ?_ hu
      · rw [hb]; exact hnres
      · rw [ha]; exact hvis
    obtain ⟨hA, hB, evs, hevs, hres⟩ := crawlStep_links_inv hi5 hu
    refine ⟨hA, hB, ⟨evs, [v], ?_, ?_, Or.inr rfl, fun h => by simp at h⟩⟩
    · refine hevs.trans ?_
      show (scrape_url cfg env st3 v).2.events ++ evs = st3.events ++ evs
      rw [hd]
    · refine hres.trans ?_
      show (scrape_url cfg env st3 v).2.results ++ [v] = st3.results ++ [v]
      rw [hb]

theorem crawlStep_fetch_inv {cfg : Config} {env : Env} {st2 : CrawlSt}
    {u : String} {depth : Int} (hi2 : Inv cfg env st2)
    (hu : u = cfg.start_url ∨ goodLink cfg env u)
    (hnres : u ∉ st2.results) (hvis : u ∈ st2.visited)
    (hmem : netlocOf u ∈ st2.currentDomains) :
    Inv cfg env (crawlStep_fetch cfg env st2 u depth).1 ∧
    (∀ l, (crawlStep_fetch cfg env st2 u depth).2 = some l →
      ∀ p ∈ l, p.1 = cfg.start_url ∨ goodLink cfg env p.1) ∧
    ∃ t c evs res,
      (crawlStep_fetch cfg env st2 u depth).1.events =
        st2.events ++ ⟨u, t, EventKind.scrape, c⟩ :: evs ∧
      (crawlStep_fetch cfg env st2 u depth).1.results = st2.results ++ res ∧
      (res = [] ∨ res = [u]) ∧
      (res = [] → (crawlStep_fetch cfg env st2 u depth).2 = some []) := by
  unfold crawlStep_fetch
  dsimp only
  have hcd := delay_le_get_crawl_delay cfg st2 u
  rcases hlk : List.lookup (netlocOf u) st2.lastRequest with _ | t
  · dsimp only
    have hi3 := @Inv.scrape_event cfg env st2 hi2 u st2.now
      (get_crawl_delay cfg st2 u) hu hmem hcd
      (fun t ht => absurd (hlk.symm.trans ht) (by simp))
    obtain ⟨hA, hB, evs, res, hevs, hres, hror, hthin⟩ :=
      crawlStep_scrape_inv hi3 hu hnres hvis
    refine ⟨hA, hB, ⟨st2.now, get_crawl_delay cfg st2 u, evs, res, ?_, ?_, hror, hthin⟩⟩
    · rw [hevs]
      dsimp only
      rw [List.append_assoc]
      rfl
    · rw [hres]
  · dsimp only
    by_cases hlt : st2.now - t < get_crawl_delay cfg st2 u
    · rw [if_pos hlt]
      have hi3 := @Inv.scrape_event cfg env st2 hi2 u
        (t + get_crawl_delay cfg st2 u) (get_crawl_delay cfg st2 u) hu hmem hcd
        (fun t' ht' => by
          have := Option.some.inj (hlk.symm.trans ht')
          subst this
          exact le_refl _)
      obtain ⟨hA, hB, evs, res, hevs, hres, hror, hthin⟩ :=
        crawlStep_scrape_inv hi3 hu hnres hvis
      refine ⟨hA, hB, ⟨t + get_crawl_delay cfg st2 u, get_crawl_delay cfg st2 u,
        evs, res, ?_, ?_, hror, hthin⟩⟩
      · rw [hevs]
        dsimp only
        rw [List.append_assoc]
        rfl
      · rw [hres]
    · rw [if_neg hlt]
      have hi3 := @Inv.scrape_event cfg env st2 hi2 u st2.now
        (get_crawl_delay cfg st2 u) hu hmem hcd
        (fun t' ht' => by
          have := Option.some.inj (hlk.symm.trans ht')
          subst this
          push_neg at hlt
          linarith)
      obtain ⟨hA, hB, evs, res, hevs, hres, hror, hthin⟩ :=
        crawlStep_scrape_inv hi3 hu hnres hvis
      refine ⟨hA, hB, ⟨st2.now, get_crawl_delay cfg st2 u, evs, res, ?_, ?_, hror, hthin⟩⟩
      · rw [hevs]
        dsimp only
        rw [List.append_assoc]
        rfl
      · rw [hres]

theorem crawlStep_inv {cfg : Config} {env : Env} {st : CrawlSt} {u : String}
    {depth : Int} (hi : Inv cfg env st)
    (hu : u = cfg.start_url ∨ goodLink cfg env u) :
    Inv cfg env (crawlStep cfg env st u depth).1 ∧
    (∀ l, (crawlStep cfg env st u depth).2 = some l →
      ∀ p ∈ l, p.1 = cfg.start_url ∨ goodLink cfg env p.1) ∧
    ∃ evs res, (crawlStep cfg env st u depth).1.events = st.events ++ evs ∧
      (crawlStep cfg env st u depth).1.results = st.results ++ res ∧
      (res = [] ∨ res = [u]) ∧
      (res = [] → (crawlStep cfg env st u depth).2 = some []) := by
  unfold crawlStep
  dsimp only
  by_cases hv : u ∈ st.visited
  · rw [if_pos hv]
    refine ⟨hi, ?_, ⟨[], [], by simp, by simp, Or.inl rfl, fun _ => rfl⟩⟩
    intro l hl p hp
    simp only [Option.some.injEq] at hl
    subst hl
    simp at hp
  · rw [if_neg hv]
    by_cases hdep : depth > cfg.max_depth
    · rw [if_pos hdep]
      refine ⟨hi, ?_, ⟨[], [], by simp, by simp, Or.inl rfl, fun _ => rfl⟩⟩
      intro l hl p hp
      simp only [Option.some.injEq] at hl
      subst hl
      simp at hp
    · rw [if_neg hdep]
      obtain ⟨hvv, hrr, hlr, hee, hcc, haa, hhops, hdom, hbound, hpc⟩ :=
        is_same_domain_effect cfg st u
      by_cases hs1 : (is_same_domain cfg st u).1 = true
      · rw [if_neg (by rw [hs1]; simp)]
        have hiA := hi.of_noTrace (is_same_domain_effect cfg st u)
        have hmemA := is_same_domain_true_mem hs1 hi.start_mem
        have hi2 : Inv cfg env { (is_same_domain cfg st u).2 with
            visited := u :: (is_same_domain cfg st u).2.visited } :=
          hiA.cons_visited u
        have hnres2 : u ∉ (is_same_domain cfg st u).2.results := by
          rw [hrr]
          intro hr
          exact hv (hi.res_visited u hr)
        have hvis2 : u ∈ u :: (is_same_domain cfg st u).2.visited :=
          List.mem_cons_self _ _
        obtain ⟨hA, hB, t, c, evs, res, hevs, hres, hror, hthin⟩ :=
          crawlStep_fetch_inv hi2 hu hnres2 hvis2 hmemA
        refine ⟨hA, hB, ⟨⟨u, t, EventKind.scrape, c⟩ :: evs, res, ?_, ?_, hror, hthin⟩⟩
        · rw [hevs]
          dsimp only
          rw [hee]
        · rw [hres]
          dsimp only
          rw [hrr]
      · have hs1f : (is_same_domain cfg st u).1 = false :=
          Bool.eq_false_iff.mpr hs1
        rw [if_pos (by rw [hs1f]; rfl)]
        refine ⟨hi.of_noTrace (is_same_domain_effect cfg st u), ?_,
          ⟨[], [], ?_, ?_, Or.inl rfl, fun _ => rfl⟩⟩
        · intro l hl p hp
          simp only [Option.some.injEq] at hl
          subst hl
          simp at hp
        · rw [hee]; simp
        · rw [hrr]; simp

theorem crawlLoop_inv {cfg : Config} {env : Env} :
    ∀ (fuel : ℕ) (q : List (String × Int)) (st : CrawlSt),
      Inv cfg env st →
      (∀ p ∈ q, p.1 = cfg.start_url ∨ goodLink cfg env p.1) →
      Inv cfg env (crawlLoop cfg env fuel q st) ∧
      ∃ evs res, (crawlLoop cfg env fuel q st).events = st.events ++ evs ∧
        (crawlLoop cfg env fuel q st).results = st.results ++ res := by
  intro fuel
  induction fuel with
  | zero =>
    intro q st hi hq
    exact ⟨hi, ⟨[], [], by simp [crawlLoop], by simp [crawlLoop]⟩⟩
  | succ f ih =>
    intro q st hi hq
    match q with
    | [] => exact ⟨hi, ⟨[], [], by simp [crawlLoop], by simp [crawlLoop]⟩⟩
    | (u, depth) :: rest =>
      have heq : crawlLoop cfg env (f + 1) ((u, depth) :: rest) st =
          match crawlStep cfg env st u depth with
          | (st1, none) => st1
          | (st1, some newEntries) =>
            crawlLoop cfg env f (rest ++ newEntries) st1 := rfl
      rw [heq]
      rcases hcs : crawlStep cfg env st u depth with ⟨st1, r⟩
      obtain ⟨hA, hB, evs, res, hevs, hres, hror, hthin⟩ :=
        @crawlStep_inv cfg env st u depth hi
          (hq (u, depth) (List.mem_cons_self _ _))
      rw [hcs] at hA hB hevs hres
      dsimp only at hA hB hevs hres
      rcases r with _ | newE
      · exact ⟨hA, ⟨evs, res, hevs, hres⟩⟩
      · dsimp only
        have hq' : ∀ p ∈ rest ++ newE,
            p.1 = cfg.start_url ∨ goodLink cfg env p.1 := by
          intro p hp
          rcases List.mem_append.mp hp with h' | h'
          · exact hq p (List.mem_cons_of_mem _ h')
          · exact hB newE rfl p h'
        obtain ⟨hI, evs2, res2, hevs2, hres2⟩ := ih (rest ++ newE) st1 hA hq'
        refine ⟨hI, ⟨evs ++ evs2, res ++ res2, ?_, ?_⟩⟩
        · rw [hevs2, hevs, List.append_assoc]
        · rw [hres2, hres, List.append_assoc]

theorem Inv_init (cfg : Config) (env : Env) : Inv cfg env (initState cfg) := by
  refine ⟨List.nodup_nil, ?_, ?_, ?_, ?_, ?_, ?_, ?_, ?_, ?_, ?_⟩
  · intro u hu; simp [initState] at hu
  · intro u hu; simp [initState] at hu
  · intro e he; simp [initState] at he
  · intro e he _; simp [initState] at he
  · intro e he _; simp [initState] at he
  · intro d; simp [initState, scrapeEvD]
  · intro d; simp [initState, scrapeEvD, List.lookup]
  · exact le_max_left _ _
  · exact List.mem_cons_self _ _
  · intro u hu; simp [initState] at hu

theorem Inv_probe_state (cfg : Config) (env : Env) (ev : FetchEvent)
    (hk : ev.kind = EventKind.probe) (hurl : ev.url = cfg.start_url) (t : ℤ) :
    Inv cfg env { initState cfg with events := [ev], now := t } := by
  have hfilt : ∀ d, scrapeEvD [ev] d = [] := by
    intro d
    unfold scrapeEvD
    rw [List.filter_cons_of_neg, List.filter_nil]
    simp [hk]
  refine ⟨List.nodup_nil, ?_, ?_, ?_, ?_, ?_, ?_, ?_, ?_, ?_, ?_⟩
  · intro u hu; simp [initState] at hu
  · intro u hu; simp [initState] at hu
  · intro e he
    simp only [List.mem_singleton] at he
    subst he
    exact Or.inl hurl
  · intro e he hke
    simp only [List.mem_singleton] at he
    subst he
    rw [hk] at hke
    cases hke
  · intro e he hke
    simp only [List.mem_singleton] at he
    subst he
    rw [hk] at hke
    cases hke
  · intro d
    rw [hfilt d]
    exact List.chain'_nil
  · intro d
    rw [hfilt d]
    rfl
  · exact le_max_left _ _
  · exact List.mem_cons_self _ _
  · intro u hu; simp [initState] at hu

theorem can_fetch_noTrace (cfg : Config) (env : Env) (st : CrawlSt)
    (u : String) : NoTraceEffect cfg st (can_fetch cfg env st u).2 := by
  obtain ⟨_, rc, dd, hsnd⟩ := can_fetch_effect cfg env st u
  rw [hsnd]
  exact ⟨rfl, rfl, rfl, rfl, rfl, rfl, le_refl _, fun _ h => h, fun h => h,
    fun _ h => Or.inl h⟩

theorem crawl_inv (cfg : Config) (env : Env) (fuel : ℕ) :
    Inv cfg env (crawl cfg env fuel) := by
  unfold crawl
  dsimp only
  have hseed : ∀ p ∈ ([(cfg.start_url, (0 : Int))] : List (String × Int)),
      p.1 = cfg.start_url ∨ goodLink cfg env p.1 := by
    intro p hp
    simp only [List.mem_singleton] at hp
    subst hp
    exact Or.inl rfl
  split
  · split
    · exact ((Inv_probe_state cfg env _ rfl rfl _).of_noTrace
        (can_fetch_noTrace cfg env _ cfg.start_url)).set_aborted true
    · exact (crawlLoop_inv fuel _ _
        ((Inv_probe_state cfg env _ rfl rfl _).of_noTrace
          (can_fetch_noTrace cfg env _ cfg.start_url)) hseed).1
  · exact (crawlLoop_inv fuel _ _ (Inv_probe_state cfg env _ rfl rfl _) hseed).1

/-! ### Claim C7: the pattern filter -/

/-- C7, corrected part: the claim says each user glob is translated to a
regular expression "anchored to match the whole URL string".  It is not:
`fnmatch.translate` anchors only the end (`\Z`) and `is_valid_url` applies
the pattern with `search`, so the glob `login*` matches the URL
`https://a/xlogin` (its suffix `login` matches), although the whole-string
reading would reject the pair.  With `login*` as an exclude pattern, the
code excludes this URL while the spec's anchored filter allows it. -/
theorem C7_counterexample :
    patternAllowed ["login*"] [] "https://a/xlogin" = false ∧
    isAllowedByPatterns ["login*"] [] "https://a/xlogin" = true ∧
    globSearch "login*".data "https://a/xlogin".data = true ∧
    globMatchCore "login*".data "https://a/xlogin".data = false := by
  decide

/-- C7, amended: for every URL, the pattern filter rejects it if any exclude
pattern matches (exclude takes precedence over include); otherwise, with
include patterns configured, the URL is allowed exactly when at least one
include pattern matches, and with none configured it is allowed — where "the
pattern matches" means: the translated glob (case-insensitive, end-anchored,
applied with `search`) fully matches some suffix of the URL, not necessarily
the whole string. -/
theorem C7_pattern_filter (excl incl : List String) (u : String) :
    patternAllowed excl incl u = true ↔
      ((∀ p ∈ excl, ∀ t, t <:+ u.data → globMatchCore p.data t = false) ∧
       (incl = [] ∨ ∃ p ∈ incl, ∃ t, t <:+ u.data ∧ globMatchCore p.data t = true)) := by
  unfold patternAllowed
  by_cases hex : excl.any (fun p => globSearch p.data u.data) = true
  · rw [if_pos hex]
    constructor
    · intro h
      cases h
    · rintro ⟨hno, _⟩
      exfalso
      obtain ⟨p, hp, hps⟩ := List.any_eq_true.mp hex
      obtain ⟨t, ht, hm⟩ := globSearch_iff.mp hps
      have := hno p hp t ht
      rw [hm] at this
      cases this
  · rw [if_neg hex]
    have hno : ∀ p ∈ excl, ∀ t, t <:+ u.data → globMatchCore p.data t = false := by
      intro p hp t ht
      rcases Bool.eq_false_or_eq_true (globMatchCore p.data t) with h' | h'
      · exact absurd (List.any_eq_true.mpr ⟨p, hp, globSearch_iff.mpr ⟨t, ht, h'⟩⟩) hex
      · exact h'
    by_cases hin : incl = []
    · subst hin
      simp only [ne_eq, not_true_eq_false, if_false]
      exact ⟨fun _ => ⟨hno, Or.inl (by trivial)⟩, fun _ => by trivial⟩
    · rw [if_pos hin]
      constructor
      · intro h
        obtain ⟨p, hp, hps⟩ := List.any_eq_true.mp h
        obtain ⟨t, ht, hm⟩ := globSearch_iff.mp hps
        exact ⟨hno, Or.inr ⟨p, hp, t, ht, hm⟩⟩
      · rintro ⟨_, hor⟩
        rcases hor with hnil | ⟨p, hp, t, ht, hm⟩
        · exact absurd hnil hin
        · exact List.any_eq_true.mpr ⟨p, hp, globSearch_iff.mpr ⟨t, ht, hm⟩⟩

/-! ### Claim C8: the effective delay -/

/-- C8: the effective delay for a fetch is the maximum of the configured
default delay and the cached robots-declared crawl delay for the domain when
there is one, and the default delay when there is none.  In the concrete
session `cfgC8` (robots `Crawl-delay: 5`, default delay `1`), the delay
actually applied between the two page fetches to `a.com` is `5`: the trace's
request-start times are `0, 0, 0, 5` and both page fetches carry effective
delay `5`. -/
theorem C8_effective_delay :
    (∀ (cfg : Config) (st : CrawlSt) (url : String) (dd : ℤ),
      st.domainDelays.lookup (netlocOf url) = some dd →
      get_crawl_delay cfg st url = max cfg.delay dd) ∧
    (∀ (cfg : Config) (st : CrawlSt) (url : String),
      st.domainDelays.lookup (netlocOf url) = none →
      get_crawl_delay cfg st url = cfg.delay) ∧
    (crawl cfgC8 envC8 5).events.map (fun e => (e.time, e.usedDelay)) =
      [(0, 0), (0, 5), (0, 0), (5, 5)] ∧
    (crawl cfgC8 envC8 5).domainDelays = [("a.com", 5)] := by
  refine ⟨?_, ?_, ?_, ?_⟩
  · intro cfg st url dd h
    unfold get_crawl_delay
    rw [h]
  · intro cfg st url h
    unfold get_crawl_delay
    rw [h]
  · decide
  · decide

/-- Witness for C8 at concrete inputs: with a cached delay of `5` and default
`1`, the effective delay is `max 1 5 = 5`. -/
theorem C8_effective_delay_witness :
    stC8.domainDelays.lookup (netlocOf "http://a.com/") = some 5 ∧
    get_crawl_delay cfgC8 stC8 "http://a.com/" = max cfgC8.delay 5 ∧
    get_crawl_delay cfgC8 stC8 "http://a.com/" = 5 :=
  ⟨by decide, C8_effective_delay.1 cfgC8 stC8 "http://a.com/" 5 (by decide),
   by decide⟩

/-! ### Claim C5: scope monotonicity -/

/-- C5: over a whole crawl session with a nonnegative external-hop budget the
hops-used counter never exceeds the budget; each scope-guard call can only
increase the counter and grow the admitted-domain set; and re-encountering a
domain already in the admitted set changes nothing. -/
theorem C5_scope_monotone :
    (∀ (cfg : Config) (env : Env) (fuel : ℕ), 0 ≤ cfg.external_links_depth →
      (crawl cfg env fuel).hopsUsed ≤ cfg.external_links_depth) ∧
    (∀ (cfg : Config) (st : CrawlSt) (u : String),
      st.hopsUsed ≤ (is_same_domain cfg st u).2.hopsUsed ∧
      st.currentDomains ⊆ (is_same_domain cfg st u).2.currentDomains) ∧
    (∀ (cfg : Config) (st : CrawlSt) (u : String),
      netlocOf u ∈ st.currentDomains → (is_same_domain cfg st u).2 = st) := by
  refine ⟨?_, ?_, ?_⟩
  · intro cfg env fuel hb
    have h := (crawl_inv cfg env fuel).hops_le
    rwa [max_eq_right hb] at h
  · intro cfg st u
    obtain ⟨_, _, _, _, _, _, hg, hh, _, _⟩ := is_same_domain_effect cfg st u
    exact ⟨hg, hh⟩
  · intro cfg st u h
    exact is_same_domain_mem_nochange h

/-- Witness for C5 at concrete inputs. -/
theorem C5_scope_monotone_witness :
    ((0 : Int) ≤ cfgC2.external_links_depth ∧
      (crawl cfgC2 envC2 5).hopsUsed ≤ cfgC2.external_links_depth) ∧
    (netlocOf "http://a.com/x" ∈ (initState cfgC2).currentDomains ∧
      (is_same_domain cfgC2 (initState cfgC2) "http://a.com/x").2 =
        initState cfgC2) :=
  ⟨⟨by decide, C5_scope_monotone.1 cfgC2 envC2 5 (by decide)⟩,
   ⟨by decide, C5_scope_monotone.2.2 cfgC2 (initState cfgC2) "http://a.com/x"
      (by decide)⟩⟩

/-! ### Claim C1: the rate-limit lower bound -/

/-- C1, corrected part: the rate limit does not cover every HTTP request.
In the session `cfgA`/`envA` (default delay 1, instant responses) the engine
issues three requests to `a.com`: the probe at time 0, the `scrape_url` page
request at time 0, and — in the same loop iteration, with no rate-limit
wait — the `get_links_from_page` request, also at time 0.  The elapsed time
between the consecutive page-fetch start and link-fetch start to the same
domain is `0 - 0 = 0`, strictly less than the domain's effective delay
`cfgA.delay = 1`. -/
theorem C1_counterexample :
    (crawl cfgA envA 3).events =
      [⟨"http://a.com/", 0, EventKind.probe, 0⟩,
       ⟨"http://a.com/", 0, EventKind.scrape, 1⟩,
       ⟨"http://a.com/", 0, EventKind.links, 0⟩] ∧
    cfgA.delay = 1 ∧
    (0 : ℤ) - 0 < cfgA.delay := by decide

/-- C1, amended: the lower bound holds for the main-loop page fetches: for
every domain, consecutive `scrape_url` request starts are separated by at
least the effective delay computed for the later request (`gapOK`), and that
effective delay is never below the configured default delay.  The
link-extraction request of `get_links_from_page` is outside this guarantee
(see the counterexample). -/
theorem C1_rate_limit (cfg : Config) (env : Env) (fuel : ℕ) (d : String) :
    List.Chain' gapOK (scrapeEvD (crawl cfg env fuel).events d) ∧
    ∀ e ∈ (crawl cfg env fuel).events, e.kind = EventKind.scrape →
      cfg.delay ≤ e.usedDelay :=
  ⟨(crawl_inv cfg env fuel).rl_chain d, (crawl_inv cfg env fuel).ev_delay⟩

/-- Witness for C1 at concrete inputs: in the `cfgC8` session the two page
fetches to `a.com` are chained with the required gaps, and the second one's
effective delay (5) is at least the default delay (1). -/
theorem C1_rate_limit_witness :
    List.Chain' gapOK (scrapeEvD (crawl cfgC8 envC8 5).events "a.com") ∧
    cfgC8.delay ≤ (5 : ℤ) :=
  ⟨(C1_rate_limit cfgC8 envC8 5 "a.com").1,
   (C1_rate_limit cfgC8 envC8 5 "a.com").2
     ⟨"http://a.com/b", 5, EventKind.scrape, 5⟩ (by decide) (by decide)⟩

/-! ### Claim C2: hop budget only for filtered URLs -/

/-- C2, corrected part: the scope guard's external-hop state is *not* mutated
only for URLs that passed robots and patterns.  In the `cfgC2` session the
seed page's body links to `http://evil.com/x`, which the exclude pattern
`*evil*` rejects; `extract_data`'s internal-link loop nevertheless calls
`is_same_domain` on it, admitting `evil.com` and consuming the whole hop
budget — while the pattern filter was never invoked on any URL at all
(`patternChecked = []`). -/
theorem C2_counterexample :
    patternAllowed cfgC2.exclude_patterns cfgC2.include_patterns
      "http://evil.com/x" = false ∧
    (crawl cfgC2 envC2 3).hopsUsed = 1 ∧
    "evil.com" ∈ (crawl cfgC2 envC2 3).currentDomains ∧
    (crawl cfgC2 envC2 3).patternChecked = [] := by decide

/-- C2, amended: in the crawling path (`get_links_from_page`) the claim
holds: processing an href whose cleaned form is robots-disallowed or
pattern-excluded leaves the hop counter and the admitted-domain set
unchanged, because `is_same_domain` short-circuits behind `is_valid_url`. -/
theorem C2_scope_only_filtered (cfg : Config) (env : Env) (st : CrawlSt)
    (url h absolute : String) (hj : urljoinE url h = Except.ok absolute)
    (hfail : canFetchResult cfg env (cleanUrl absolute) = false ∨
      patternAllowed cfg.exclude_patterns cfg.include_patterns
        (cleanUrl absolute) = false) :
    (process_href cfg env st url h).1.hopsUsed = st.hopsUsed ∧
    (process_href cfg env st url h).1.currentDomains = st.currentDomains := by
  unfold process_href
  rw [hj]
  dsimp only
  by_cases h1 : cleanUrl absolute = ""
  · rw [if_pos h1]
    exact ⟨rfl, rfl⟩
  · rw [if_neg h1]
    by_cases h2 : cleanUrl absolute = url
    · rw [if_pos h2]
      exact ⟨rfl, rfl⟩
    · rw [if_neg h2]
      obtain ⟨⟨rc, dd, pc, heq, hpc⟩, himp⟩ :=
        is_valid_url_effect cfg env st (cleanUrl absolute)
      by_cases h3 : (is_valid_url cfg env st (cleanUrl absolute)).1 = true
      · exfalso
        obtain ⟨hcf, hpa⟩ := himp h3
        rcases hfail with h' | h'
        · rw [hcf] at h'; cases h'
        · rw [hpa] at h'; cases h'
      · have h3f : (is_valid_url cfg env st (cleanUrl absolute)).1 = false :=
          Bool.eq_false_iff.mpr h3
        rw [if_pos (by rw [h3f]; rfl)]
        rw [heq]
        exact ⟨rfl, rfl⟩

/-- Witness for C2 at concrete inputs: feeding the pattern-excluded link
through `process_href` (the `get_links_from_page` path) leaves the hop
counter unchanged. -/
theorem C2_scope_only_filtered_witness :
    urljoinE "http://a.com/" "http://evil.com/x" =
      Except.ok "http://evil.com/x" ∧
    patternAllowed cfgC2.exclude_patterns cfgC2.include_patterns
      (cleanUrl "http://evil.com/x") = false ∧
    (process_href cfgC2 envC2 (initState cfgC2) "http://a.com/"
      "http://evil.com/x").1.hopsUsed = (initState cfgC2).hopsUsed :=
  ⟨by rfl, by decide,
   (C2_scope_only_filtered cfgC2 envC2 (initState cfgC2) "http://a.com/"
     "http://evil.com/x" "http://evil.com/x" (by rfl)
     (Or.inr (by decide))).1⟩

/-! ### Claim C3: robots precedence -/

/-- C3, corrected part: a robots-disallowed URL *is* fetched once.  With
compliance on and robots.txt disallowing everything on the seed domain, the
crawl still issues the accessibility probe (a HEAD, retried as a GET) for the
seed URL — the probe runs before the robots check — and only then aborts. -/
theorem C3_counterexample :
    cfgC3.respect_robots = true ∧
    canFetchResult cfgC3 envC3 cfgC3.start_url = false ∧
    (crawl cfgC3 envC3 3).events =
      [⟨"http://a.com/", 0, EventKind.probe, 0⟩] ∧
    (crawl cfgC3 envC3 3).abortedByRobots = true := by decide

/-- C3, amended: with robots compliance on, (1) when the probe completes and
robots.txt disallows the seed, the crawl aborts before any queue processing —
no visit, no result, and the only request ever issued is the seed probe; and
(2) a robots-disallowed URL other than the seed is never requested at all, in
any session and regardless of pattern and scope settings. -/
theorem C3_robots_precedence :
    (∀ (cfg : Config) (env : Env) (fuel : ℕ),
      cfg.respect_robots = true → env.probeOk = true →
      canFetchResult cfg env cfg.start_url = false →
      (crawl cfg env fuel).events =
        [⟨cfg.start_url, 0, EventKind.probe, 0⟩] ∧
      (crawl cfg env fuel).results = [] ∧
      (crawl cfg env fuel).visited = [] ∧
      (crawl cfg env fuel).abortedByRobots = true) ∧
    (∀ (cfg : Config) (env : Env) (fuel : ℕ) (u : String),
      canFetchResult cfg env u = false → u ≠ cfg.start_url →
      ∀ e ∈ (crawl cfg env fuel).events, e.url ≠ u) := by
  constructor
  · intro cfg env fuel hr hp hcf
    unfold crawl
    dsimp only
    rw [if_pos hp]
    split
    · refine ⟨?_, ?_, ?_, rfl⟩
      · exact ((can_fetch_noTrace cfg env _ cfg.start_url).2.2.2.1).trans rfl
      · exact ((can_fetch_noTrace cfg env _ cfg.start_url).2.1).trans rfl
      · exact ((can_fetch_noTrace cfg env _ cfg.start_url).1).trans rfl
    · next hcond =>
      exfalso
      apply hcond
      have h1 : ∀ st : CrawlSt,
          (can_fetch cfg env st cfg.start_url).1 = false := by
        intro st
        rw [(can_fetch_effect cfg env st cfg.start_url).1, hcf]
      rw [h1, hr]
      rfl
  · intro cfg env fuel u hcf hne e he heq
    rcases (crawl_inv cfg env fuel).ev_good e he with h' | h'
    · rw [heq] at h'
      exact hne h'
    · rw [heq] at h'
      unfold goodLink at h'
      rw [hcf] at h'
      obtain ⟨h1, -, -⟩ := h'
      cases h1

/-- Witness for C3 at concrete inputs. -/
theorem C3_robots_precedence_witness :
    ((crawl cfgC3 envC3 3).results = [] ∧
      (crawl cfgC3 envC3 3).abortedByRobots = true) ∧
    (⟨"http://a.com/", 0, EventKind.probe, 0⟩ : FetchEvent).url ≠
      "http://a.com/x" :=
  ⟨⟨(C3_robots_precedence.1 cfgC3 envC3 3 rfl rfl (by decide)).2.1,
    (C3_robots_precedence.1 cfgC3 envC3 3 rfl rfl (by decide)).2.2.2⟩,
   C3_robots_precedence.2 cfgC3 envC3 3 "http://a.com/x" (by decide)
     (by decide) ⟨"http://a.com/", 0, EventKind.probe, 0⟩ (by decide)⟩

/-! ### Claim C4: admission at dequeue time -/

/-- C4, corrected part: the main loop does *not* evaluate the full admission
decision at dequeue time.  With the exclude pattern `*` (which matches every
URL, including the seed), the seed entry is dequeued, fails the pattern
filter — yet is scraped and recorded rather than skipped, because dequeue
only rechecks visited, depth and the scope guard. -/
theorem C4_counterexample :
    patternAllowed cfgC4.exclude_patterns cfgC4.include_patterns
      cfgC4.start_url = false ∧
    (crawl cfgC4 envA 3).results = ["http://a.com/"] := by decide

/-- C4, amended: robots and pattern admission happen at link-discovery time,
before enqueue: every URL the engine ever requests is the seed or a link that
already passed the robots check and the pattern filter (in canonical form)
when it was extracted; and the scope guard is evaluated at dequeue time —
every page actually fetched has its domain in the admitted set. -/
theorem C4_dequeue_admission (cfg : Config) (env : Env) (fuel : ℕ) :
    (∀ e ∈ (crawl cfg env fuel).events,
      e.url = cfg.start_url ∨ goodLink cfg env e.url) ∧
    (∀ e ∈ (crawl cfg env fuel).events, e.kind = EventKind.scrape →
      netlocOf e.url ∈ (crawl cfg env fuel).currentDomains) :=
  ⟨(crawl_inv cfg env fuel).ev_good, (crawl_inv cfg env fuel).ev_scope⟩

/-- Witness for C4 at concrete inputs. -/
theorem C4_dequeue_admission_witness :
    (⟨"http://a.com/", 0, EventKind.scrape, 1⟩ : FetchEvent).url =
      cfgA.start_url ∨ goodLink cfgA envA "http://a.com/" :=
  (C4_dequeue_admission cfgA envA 3).1
    ⟨"http://a.com/", 0, EventKind.scrape, 1⟩ (by decide)

/-! ### Claim C6: one result per canonical form -/

/-- C6, corrected part: the result sequence can hold two entries with the
same canonical form.  The seed is enqueued and recorded verbatim — it is
never canonicalized — so with seed `http://a.com/p?x=1` whose page links to
`http://a.com/p`, both are scraped: two CrawlResults whose canonical form is
the same `http://a.com/p`. -/
theorem C6_counterexample :
    (crawl cfgC6 envC6 5).results =
      ["http://a.com/p?x=1", "http://a.com/p"] ∧
    cleanUrl "http://a.com/p?x=1" = cleanUrl "http://a.com/p" ∧
    "http://a.com/p?x=1" ≠ "http://a.com/p" := by decide

/-- C6, amended: there is at most one CrawlResult per exact URL string (the
visited-set check makes the result list duplicate-free), and every result
other than the seed is in canonical form — query- and fragment-free — so
only the never-canonicalized seed can collide with another result's
canonical form. -/
theorem C6_dedup (cfg : Config) (env : Env) (fuel : ℕ) :
    (crawl cfg env fuel).results.Nodup ∧
    ∀ u ∈ (crawl cfg env fuel).results, u = cfg.start_url ∨ qfFree u :=
  ⟨(crawl_inv cfg env fuel).res_nodup,
   fun u hu => ((crawl_inv cfg env fuel).res_good u hu).imp_right
     (fun h => h.2.2)⟩

/-- Witness for C6 at concrete inputs. -/
theorem C6_dedup_witness :
    "http://a.com/p" = cfgC6.start_url ∨ qfFree "http://a.com/p" :=
  (C6_dedup cfgC6 envC6 5).2 "http://a.com/p" (by decide)

/-! ### Crash-freedom machinery for claim C9 -/

theorem process_href_ok (cfg : Config) (env : Env) (st : CrawlSt)
    (url h : String) (hb : bracketsOK (parseL h.data).netloc = true) :
    ∃ o, (process_href cfg env st url h).2 = Except.ok o := by
  unfold process_href
  have hj : urljoinE url h = Except.ok (String.mk (urljoinL url.data h.data)) := by
    unfold urljoinE
    rw [if_pos hb]
  rw [hj]
  dsimp only
  by_cases h1 : cleanUrl (String.mk (urljoinL url.data h.data)) = ""
  · rw [if_pos h1]
    exact ⟨none, rfl⟩
  · rw [if_neg h1]
    by_cases h2 : cleanUrl (String.mk (urljoinL url.data h.data)) = url
    · rw [if_pos h2]
      exact ⟨none, rfl⟩
    · rw [if_neg h2]
      by_cases h3 : (is_valid_url cfg env st
          (cleanUrl (String.mk (urljoinL url.data h.data)))).1 = true
      · rw [if_neg (by simp [h3])]
        by_cases h4 : (is_same_domain cfg
            (is_valid_url cfg env st
              (cleanUrl (String.mk (urljoinL url.data h.data)))).2
            (cleanUrl (String.mk (urljoinL url.data h.data)))).1 = true
        · rw [if_pos h4]
          exact ⟨_, rfl⟩
        · rw [if_neg h4]
          exact ⟨none, rfl⟩
      · rw [if_pos (by simp [Bool.not_eq_true] at h3 ⊢; exact h3)]
        exact ⟨none, rfl⟩

theorem get_links_loop_ok (cfg : Config) (env : Env) (url : String) :
    ∀ (hs : List String) (st : CrawlSt) (acc : List String),
      (∀ h ∈ hs, bracketsOK (parseL h.data).netloc = true) →
      ∃ ls, (get_links_loop cfg env url st acc hs).2 = Except.ok ls := by
  intro hs
  induction hs with
  | nil =>
    intro st acc _
    exact ⟨dedupFirst [] acc, rfl⟩
  | cons h t ih =>
    intro st acc hall
    obtain ⟨o, ho⟩ := process_href_ok cfg env st url h
      (hall h (List.mem_cons_self _ _))
    unfold get_links_loop
    rcases hph : process_href cfg env st url h with ⟨st1, res⟩
    rw [hph] at ho
    dsimp only at ho
    subst ho
    rcases o with _ | l
    · dsimp only
      exact ih st1 acc (fun x hx => hall x (List.mem_cons_of_mem _ hx))
    · dsimp only
      exact ih st1 (acc ++ [l]) (fun x hx => hall x (List.mem_cons_of_mem _ hx))

theorem get_links_from_page_ok (cfg : Config) (env : Env) (st : CrawlSt)
    (u : String)
    (hsafe : ∀ hrefs, env.fetchLinks u = FetchOutcome.html hrefs →
      ∀ h ∈ hrefs, bracketsOK (parseL h.data).netloc = true) :
    ∃ ls, (get_links_from_page cfg env st u).2 = Except.ok ls := by
  unfold get_links_from_page
  dsimp only
  rcases hfp : env.fetchLinks u with _ | _ | _ | _ | hrefs
  all_goals dsimp only
  · exact ⟨[], rfl⟩
  · exact ⟨[], rfl⟩
  · exact ⟨[], rfl⟩
  · exact ⟨[], rfl⟩
  · exact get_links_loop_ok cfg env u hrefs _ [] (hsafe hrefs hfp)

theorem crawlStep_links_nocrash (cfg : Config) (env : Env) (st5 : CrawlSt)
    (u : String) (depth : Int)
    (hsafe : ∀ (w : String) (hrefs : List String),
      env.fetchLinks w = FetchOutcome.html hrefs →
      ∀ h ∈ hrefs, bracketsOK (parseL h.data).netloc = true) :
    ∃ st6 l, crawlStep_links cfg env st5 u depth = (st6, some l) ∧
      st6.crashed = st5.crashed := by
  unfold crawlStep_links
  by_cases hdm : depth < cfg.max_depth
  · rw [if_pos hdm]
    obtain ⟨ls, hls⟩ := get_links_from_page_ok cfg env st5 u (hsafe u)
    have hcr := (get_links_from_page_effect cfg env st5 u).1.2.2.2.2.1
    rcases hgl : get_links_from_page cfg env st5 u with ⟨st6, lres⟩
    rw [hgl] at hls hcr
    dsimp only at hls hcr
    subst hls
    dsimp only
    exact ⟨st6, _, rfl, hcr⟩
  · rw [if_neg hdm]
    exact ⟨st5, [], rfl, rfl⟩

theorem crawlStep_scrape_nocrash (cfg : Config) (env : Env) (st3 : CrawlSt)
    (u : String) (depth : Int)
    (hsafe : ∀ (w : String) (hrefs : List String),
      env.fetchLinks w = FetchOutcome.html hrefs →
      ∀ h ∈ hrefs, bracketsOK (parseL h.data).netloc = true) :
    ∃ st' l, crawlStep_scrape cfg env st3 u depth = (st', some l) ∧
      st'.crashed = st3.crashed := by
  have hcr := (scrape_url_effect cfg env st3 u).1.2.2.2.2.1
  unfold crawlStep_scrape
  dsimp only
  rcases hsp : (scrape_url cfg env st3 u).1 with _ | v
  · dsimp only
    exact ⟨(scrape_url cfg env st3 u).2, [], rfl, hcr⟩
  · dsimp only
    obtain ⟨st6, l, heq, hcr2⟩ := crawlStep_links_nocrash cfg env
      { (scrape_url cfg env st3 u).2 with
        results := (scrape_url cfg env st3 u).2.results ++ [v] } u depth hsafe
    exact ⟨st6, l, heq, hcr2.trans hcr⟩

theorem crawlStep_fetch_nocrash (cfg : Config) (env : Env) (st2 : CrawlSt)
    (u : String) (depth : Int)
    (hsafe : ∀ (w : String) (hrefs : List String),
      env.fetchLinks w = FetchOutcome.html hrefs →
      ∀ h ∈ hrefs, bracketsOK (parseL h.data).netloc = true) :
    ∃ st' l, crawlStep_fetch cfg env st2 u depth = (st', some l) ∧
      st'.crashed = st2.crashed := by
  unfold crawlStep_fetch
  dsimp only
  rcases hlk : List.lookup (netlocOf u) st2.lastRequest with _ | t
  · dsimp only
    obtain ⟨st', l, heq, hcr⟩ := crawlStep_scrape_nocrash cfg env
      { st2 with now := st2.now,
                 lastRequest := (netlocOf u, st2.now) :: st2.lastRequest,
                 events := st2.events ++ [⟨u, st2.now, EventKind.scrape,
                   get_crawl_delay cfg st2 u⟩] } u depth hsafe
    exact ⟨st', l, heq, hcr⟩
  · dsimp only
    by_cases hlt : st2.now - t < get_crawl_delay cfg st2 u
    · rw [if_pos hlt]
      obtain ⟨st', l, heq, hcr⟩ := crawlStep_scrape_nocrash cfg env
        { st2 with now := t + get_crawl_delay cfg st2 u,
                   lastRequest := (netlocOf u, t + get_crawl_delay cfg st2 u) ::
                     st2.lastRequest,
                   events := st2.events ++ [⟨u, t + get_crawl_delay cfg st2 u,
                     EventKind.scrape, get_crawl_delay cfg st2 u⟩] } u depth hsafe
      exact ⟨st', l, heq, hcr⟩
    · rw [if_neg hlt]
      obtain ⟨st', l, heq, hcr⟩ := crawlStep_scrape_nocrash cfg env
        { st2 with now := st2.now,
                   lastRequest := (netlocOf u, st2.now) :: st2.lastRequest,
                   events := st2.events ++ [⟨u, st2.now, EventKind.scrape,
                     get_crawl_delay cfg st2 u⟩] } u depth hsafe
      exact ⟨st', l, heq, hcr⟩

theorem crawlStep_nocrash (cfg : Config) (env : Env) (st : CrawlSt)
    (u : String) (depth : Int)
    (hsafe : ∀ (w : String) (hrefs : List String),
      env.fetchLinks w = FetchOutcome.html hrefs →
      ∀ h ∈ hrefs, bracketsOK (parseL h.data).netloc = true) :
    ∃ st1 l, crawlStep cfg env st u depth = (st1, some l) ∧
      st1.crashed = st.crashed := by
  unfold crawlStep
  dsimp only
  by_cases hv : u ∈ st.visited
  · rw [if_pos hv]
    exact ⟨st, [], rfl, rfl⟩
  · rw [if_neg hv]
    by_cases hdep : depth > cfg.max_depth
    · rw [if_pos hdep]
      exact ⟨st, [], rfl, rfl⟩
    · rw [if_neg hdep]
      have hcc := (is_same_domain_effect cfg st u).2.2.2.2.1
      by_cases hs1 : (is_same_domain cfg st u).1 = true
      · rw [if_neg (by rw [hs1]; simp)]
        obtain ⟨st', l, heq, hcr⟩ := crawlStep_fetch_nocrash cfg env
          { (is_same_domain cfg st u).2 with
            visited := u :: (is_same_domain cfg st u).2.visited } u depth hsafe
        exact ⟨st', l, heq, hcr.trans hcc⟩
      · have hs1f : (is_same_domain cfg st u).1 = false :=
          Bool.eq_false_iff.mpr hs1
        rw [if_pos (by rw [hs1f]; rfl)]
        exact ⟨(is_same_domain cfg st u).2, [], rfl, hcc⟩

theorem crawlLoop_nocrash (cfg : Config) (env : Env)
    (hsafe : ∀ (w : String) (hrefs : List String),
      env.fetchLinks w = FetchOutcome.html hrefs →
      ∀ h ∈ hrefs, bracketsOK (parseL h.data).netloc = true) :
    ∀ (fuel : ℕ) (q : List (String × Int)) (st : CrawlSt),
      (crawlLoop cfg env fuel q st).crashed = st.crashed := by
  intro fuel
  induction fuel with
  | zero => intro q st; rfl
  | succ f ih =>
    intro q st
    match q with
    | [] => rfl
    | (u, depth) :: rest =>
      have heq : crawlLoop cfg env (f + 1) ((u, depth) :: rest) st =
          match crawlStep cfg env st u depth with
          | (st1, none) => st1
          | (st1, some newEntries) =>
            crawlLoop cfg env f (rest ++ newEntries) st1 := rfl
      rw [heq]
      obtain ⟨st1, l, hstep, hcr⟩ := crawlStep_nocrash cfg env st u depth hsafe
      rw [hstep]
      dsimp only
      exact (ih _ _).trans hcr

/-! ### Claim C9: page-boundary error handling -/

/-- C9, corrected part: not every exception raised while processing a single
page is caught at that page's boundary.  In the `cfgC9` session the seed's
link-extraction response contains a malformed bracketed authority
(`http://[bad`); `urljoin` raises `ValueError`, which the surrounding
`except requests.RequestException` does not catch, so the exception escapes
`get_links_from_page` and kills the BFS loop: the crawl ends crashed, and
the perfectly good link extracted just before the bad one is never
visited. -/
theorem C9_counterexample :
    urljoinE "http://a.com/" "http://[bad" = Except.error () ∧
    (crawl cfgC9 envC9 5).crashed = true ∧
    (crawl cfgC9 envC9 5).results = ["http://a.com/"] ∧
    "http://a.com/ok" ∉ (crawl cfgC9 envC9 5).visited :=
  ⟨rfl, by decide, by decide, by decide⟩

/-- C9, amended: with the single exception of a `urljoin` `ValueError` in the
href loop of `get_links_from_page`, page-level failures do degrade to a skip.
If no link-extraction response ever contains a href with a malformed
bracketed authority (the only modelled `urljoin` failure), the BFS loop runs
to completion un-crashed; and the `scrape_url` side is unconditionally safe —
its blanket `except Exception` means a page fetch or `extract_data` failure
(including a malformed href in the scraped body) never alters the
crashed/aborted flags. -/
theorem C9_page_errors (cfg : Config) (env : Env) (fuel : ℕ)
    (hsafe : ∀ (u : String) (hrefs : List String),
      env.fetchLinks u = FetchOutcome.html hrefs →
      ∀ h ∈ hrefs, bracketsOK (parseL h.data).netloc = true) :
    (crawl cfg env fuel).crashed = false ∧
    ∀ (st : CrawlSt) (u : String),
      (scrape_url cfg env st u).2.crashed = st.crashed ∧
      (scrape_url cfg env st u).2.abortedByRobots = st.abortedByRobots := by
  constructor
  · unfold crawl
    dsimp only
    by_cases hp : env.probeOk = true
    · rw [if_pos hp]
      split
      · exact ((can_fetch_noTrace cfg env _ cfg.start_url).2.2.2.2.1).trans rfl
      · exact (crawlLoop_nocrash cfg env hsafe fuel _ _).trans
          (((can_fetch_noTrace cfg env _ cfg.start_url).2.2.2.2.1).trans rfl)
    · rw [if_neg hp]
      exact (crawlLoop_nocrash cfg env hsafe fuel _ _).trans rfl
  · intro st u
    exact ⟨(scrape_url_effect cfg env st u).1.2.2.2.2.1,
           (scrape_url_effect cfg env st u).1.2.2.2.2.2.1⟩

/-- Witness for C9 at concrete inputs: in the `envC9b` session the
link-extraction request always raises (a caught `RequestException`) and the
scraped body holds the malformed href, handled by `extract_data`'s blanket
catch — so the crawl finishes un-crashed. -/
theorem C9_page_errors_witness :
    (crawl cfgC9 envC9b 5).crashed = false ∧
    (scrape_url cfgC9 envC9b (initState cfgC9) "http://a.com/").2.crashed =
      (initState cfgC9).crashed :=
  ⟨(C9_page_errors cfgC9 envC9b 5 (fun _ _ h => FetchOutcome.noConfusion h)).1,
   ((C9_page_errors cfgC9 envC9b 5 (fun _ _ h => FetchOutcome.noConfusion h)).2
     (initState cfgC9) "http://a.com/").1⟩

/-! ### Visited-set machinery for claim C10 -/

theorem crawlStep_links_visited (cfg : Config) (env : Env) (st5 : CrawlSt)
    (u : String) (depth : Int) :
    (crawlStep_links cfg env st5 u depth).1.visited = st5.visited := by
  unfold crawlStep_links
  by_cases hdm : depth < cfg.max_depth
  · rw [if_pos hdm]
    have h1 := (get_links_from_page_effect cfg env st5 u).1.1
    rcases hgl : get_links_from_page cfg env st5 u with ⟨st6, lres⟩
    rw [hgl] at h1
    dsimp only at h1
    rcases lres with e | links <;> dsimp only <;> exact h1
  · rw [if_neg hdm]

theorem crawlStep_scrape_visited (cfg : Config) (env : Env) (st3 : CrawlSt)
    (u : String) (depth : Int) :
    (crawlStep_scrape cfg env st3 u depth).1.visited = st3.visited := by
  have h1 := (scrape_url_effect cfg env st3 u).1.1
  unfold crawlStep_scrape
  dsimp only
  rcases hsp : (scrape_url cfg env st3 u).1 with _ | v
  · dsimp only
    exact h1
  · dsimp only
    exact (crawlStep_links_visited cfg env
      { (scrape_url cfg env st3 u).2 with
        results := (scrape_url cfg env st3 u).2.results ++ [v] } u depth).trans h1

theorem crawlStep_fetch_visited (cfg : Config) (env : Env) (st2 : CrawlSt)
    (u : String) (depth : Int) :
    (crawlStep_fetch cfg env st2 u depth).1.visited = st2.visited := by
  unfold crawlStep_fetch
  dsimp only
  exact (crawlStep_scrape_visited cfg env _ u depth).trans rfl

theorem crawlStep_visited_mono (cfg : Config) (env : Env) (st : CrawlSt)
    (u : String) (depth : Int) :
    st.visited ⊆ (crawlStep cfg env st u depth).1.visited := by
  unfold crawlStep
  dsimp only
  by_cases hv : u ∈ st.visited
  · rw [if_pos hv]
    exact fun x hx => hx
  · rw [if_neg hv]
    by_cases hdep : depth > cfg.max_depth
    · rw [if_pos hdep]
      exact fun x hx => hx
    · rw [if_neg hdep]
      have hvv := (is_same_domain_effect cfg st u).1
      by_cases hs1 : (is_same_domain cfg st u).1 = true
      · rw [if_neg (by rw [hs1]; simp)]
        intro x hx
        rw [crawlStep_fetch_visited]
        show x ∈ u :: (is_same_domain cfg st u).2.visited
        rw [hvv]
        exact List.mem_cons_of_mem _ hx
      · have hs1f : (is_same_domain cfg st u).1 = false :=
          Bool.eq_false_iff.mpr hs1
        rw [if_pos (by rw [hs1f]; rfl)]
        intro x hx
        rw [hvv]
        exact hx

theorem crawlLoop_visited_mono (cfg : Config) (env : Env) :
    ∀ (fuel : ℕ) (q : List (String × Int)) (st : CrawlSt),
      st.visited ⊆ (crawlLoop cfg env fuel q st).visited := by
  intro fuel
  induction fuel with
  | zero => intro q st x hx; exact hx
  | succ f ih =>
    intro q st
    match q with
    | [] => exact fun x hx => hx
    | (u, depth) :: rest =>
      have heqL : crawlLoop cfg env (f + 1) ((u, depth) :: rest) st =
          match crawlStep cfg env st u depth with
          | (st1, none) => st1
          | (st1, some newEntries) =>
            crawlLoop cfg env f (rest ++ newEntries) st1 := rfl
      rw [heqL]
      have hmono := crawlStep_visited_mono cfg env st u depth
      rcases hcs : crawlStep cfg env st u depth with ⟨st1, r⟩
      rw [hcs] at hmono
      dsimp only at hmono
      rcases r with _ | newE
      · exact hmono
      · dsimp only
        exact fun x hx => ih _ _ (hmono hx)

theorem crawlLoop_cons_visited (cfg : Config) (env : Env) (f : ℕ)
    (rest : List (String × Int)) (u : String) (depth : Int) (st : CrawlSt)
    (hnv : u ∉ st.visited) (hd : ¬(depth > cfg.max_depth))
    (hsd : (is_same_domain cfg st u).1 = true) :
    u ∈ (crawlLoop cfg env (f + 1) ((u, depth) :: rest) st).visited := by
  have heqL : crawlLoop cfg env (f + 1) ((u, depth) :: rest) st =
      match crawlStep cfg env st u depth with
      | (st1, none) => st1
      | (st1, some newEntries) =>
        crawlLoop cfg env f (rest ++ newEntries) st1 := rfl
  rw [heqL]
  have hmem : u ∈ (crawlStep cfg env st u depth).1.visited := by
    unfold crawlStep
    dsimp only
    rw [if_neg hnv, if_neg hd]
    rw [if_neg (by rw [hsd]; simp)]
    rw [crawlStep_fetch_visited]
    show u ∈ u :: (is_same_domain cfg st u).2.visited
    exact List.mem_cons_self _ _
  rcases hcs : crawlStep cfg env st u depth with ⟨st1, r⟩
  rw [hcs] at hmem
  dsimp only at hmem
  rcases r with _ | newE
  · exact hmem
  · dsimp only
    exact crawlLoop_visited_mono cfg env f _ _ hmem

/-! ### Claim C10: the seed bypasses canonicalization and pattern filtering -/

/-- C10: the seed URL is handled verbatim and outside the pattern filter.
Provided the probe completes, robots (when compliance is on) allow the seed,
and the depth ceiling is not negative, the first loop iteration always visits
the seed exactly as given — query and fragment intact, no canonicalization,
and with no reference to the exclude/include patterns (the scope guard, the
only admission component at dequeue time, always admits the start domain).
Moreover every recorded result is either the verbatim seed or a discovered
link that passed the filters in canonical form; the pattern filter is only
ever invoked on canonicalized URLs (so never on a non-canonical seed); and
`scrape_url` records each page URL exactly as requested. -/
theorem C10_seed_handling (cfg : Config) (env : Env) (fuel : ℕ)
    (hp : env.probeOk = true)
    (hr : cfg.respect_robots = true → canFetchResult cfg env cfg.start_url = true)
    (hd : ¬((0 : Int) > cfg.max_depth)) (hf : 1 ≤ fuel) :
    cfg.start_url ∈ (crawl cfg env fuel).visited ∧
    (∀ r ∈ (crawl cfg env fuel).results,
      r = cfg.start_url ∨ goodLink cfg env r) ∧
    (∀ u ∈ (crawl cfg env fuel).patternChecked, qfFree u) ∧
    (∀ (st : CrawlSt) (w : String),
      (scrape_url cfg env st w).1 = none ∨ (scrape_url cfg env st w).1 = some w) := by
  refine ⟨?_, (crawl_inv cfg env fuel).res_good,
    (crawl_inv cfg env fuel).pattern_clean,
    fun st w => (scrape_url_effect cfg env st w).2⟩
  unfold crawl
  dsimp only
  rw [if_pos hp]
  have hcond : ∀ st : CrawlSt,
      (!(can_fetch cfg env st cfg.start_url).1 && cfg.respect_robots) = false := by
    intro st
    rw [(can_fetch_effect cfg env st cfg.start_url).1]
    rcases hrb : cfg.respect_robots with _ | _
    · simp
    · rw [hr hrb]
      rfl
  rw [hcond]
  rw [if_neg (by simp)]
  rcases fuel with _ | f
  · exact absurd hf (by norm_num)
  · refine crawlLoop_cons_visited cfg env f [] cfg.start_url 0 _ ?_ hd ?_
    · rw [(can_fetch_noTrace cfg env _ cfg.start_url).1]
      exact List.not_mem_nil _
    · unfold is_same_domain
      dsimp only
      have hsd0 : netlocOf cfg.start_url = start_domain cfg := rfl
      rw [if_pos hsd0]

/-- Witness for C10 at concrete inputs. -/
theorem C10_seed_handling_witness :
    "http://a.com/" ∈ (crawl cfgA envA 2).visited :=
  (C10_seed_handling cfgA envA 2 rfl (fun _ => by decide) (by decide)
    (by decide)).1

end WebScraper
